import Mathlib

/-!
# Verification of the ICS merge pipeline (`merge_ics.py`)

Shallow embedding of the merger's core: strings are modelled as `List Char`
(`Str`), Python's text operations (`splitlines`, `strip`, slicing, regex
searches over line-structured text, `latin-1`/`UTF-8` codecs) are modelled as
executable Lean functions, and the stateful merge loop of `main` is modelled
by explicit state passing.  Python regex searches such as
`re.search(r"\nUID:(.+)", evt)` are anchored at `"\n"`, hence they scan the
physical lines after the first one in order; they are embedded as line scans
over `splitNL` (a split at `'\n'` exactly, matching what the regex engine
sees).  `text.splitlines()` is embedded with Python's full line-break
character set and `\r\n` handling.
-/

/-- Strings of the Python program, modelled as lists of unicode characters. -/
abbrev Str := List Char

/-- Embed a Lean string literal as a `Str`. -/
def str (s : String) : Str := s.data

/-- Python `str.isspace` / `str.strip` whitespace set (ASCII whitespace,
the C1 control separators, NEL, and the Unicode space categories). -/
def pyIsSpace (c : Char) : Bool :=
  c ∈ [' ', '\t', '\n', '\x0b', '\x0c', '\r', '\x1c', '\x1d', '\x1e', '\x1f',
       '\x85', '\xa0', '\u1680', '\u2000', '\u2001', '\u2002', '\u2003',
       '\u2004', '\u2005', '\u2006', '\u2007', '\u2008', '\u2009', '\u200A',
       '\u2028', '\u2029', '\u202F', '\u205F', '\u3000']

/-- Python `str.strip()`: drop leading and trailing whitespace. -/
def pyStrip (s : Str) : Str :=
  ((s.dropWhile pyIsSpace).reverse.dropWhile pyIsSpace).reverse

/-- The line-break characters recognised by Python `str.splitlines`. -/
def isLineBreak (c : Char) : Bool :=
  c ∈ ['\n', '\r', '\x0b', '\x0c', '\x1c', '\x1d', '\x1e', '\x85',
       '\u2028', '\u2029']

/-- Worker for `splitlines`: `cur` is the current line accumulated in
reverse; `afterCR` records that the previous character was a `\r` whose
line was already emitted, so that a following `\n` is part of the same
`\r\n` break and is skipped. -/
def splitlinesAux (afterCR : Bool) (cur : Str) : Str → List Str
  | [] => if cur.isEmpty then [] else [cur.reverse]
  | c :: rest =>
    if afterCR ∧ c = '\n' then splitlinesAux false cur rest
    else if c = '\r' then cur.reverse :: splitlinesAux true [] rest
    else if isLineBreak c then cur.reverse :: splitlinesAux false [] rest
    else splitlinesAux false (c :: cur) rest

/-- Python `text.splitlines()`. -/
def splitlines (s : Str) : List Str := splitlinesAux false [] s

/-- Split a string at every `'\n'` exactly (never empty): this is the line
structure a Python regex containing a literal `\n` observes. -/
def splitNLAux (cur : Str) : Str → List Str
  | [] => [cur.reverse]
  | c :: rest =>
    if c = '\n' then cur.reverse :: splitNLAux [] rest
    else splitNLAux (c :: cur) rest

/-- Split at `'\n'`; inverse of `joinNL` on newline-free lines. -/
def splitNL (s : Str) : List Str := splitNLAux [] s

/-- `"\n".join(lines)`. -/
def joinNL : List Str → Str
  | [] => []
  | [l] => l
  | l :: ls => l ++ '\n' :: joinNL ls

/-- Drop the prefix `p` from `l`, or `none` when `p` is not a prefix. -/
def stripPre : Str → Str → Option Str
  | [], l => some l
  | _ :: _, [] => none
  | p :: ps, c :: cs => if p = c then stripPre ps cs else none

/-- Split `l` at the first occurrence of `c` into the (c-free) part before
and the part after, or `none` when `c` does not occur. -/
def splitFirst (c : Char) : Str → Option (Str × Str)
  | [] => none
  | x :: xs =>
    if x = c then some ([], xs)
    else match splitFirst c xs with
      | some (a, b) => some (x :: a, b)
      | none => none

/-! ## `unfold_ics`: RFC 5545 line unfolding -/

/-- `line.startswith(" ")`. -/
def startsSpace (l : Str) : Bool :=
  match l with
  | c :: _ => c = ' '
  | [] => false

/-- Worker for `unfold_ics`.  `acc` holds the output lines in reverse; a
physical line starting with a space is appended (without the space) to the
previous logical line, except when there is no previous line yet. -/
def unfoldAux (acc : List Str) : List Str → List Str
  | [] => acc.reverse
  | l :: ls =>
    match acc with
    | h :: t =>
      if startsSpace l then unfoldAux ((h ++ l.tail) :: t) ls
      else unfoldAux (l :: h :: t) ls
    | [] => unfoldAux [l] ls

/-- `unfold_ics(text)`: split into physical lines, then merge
space-prefixed continuation lines into the preceding logical line. -/
def unfold_ics (text : Str) : List Str := unfoldAux [] (splitlines text)

/-! ## `parse_events`: event block extraction -/

/-- `ln.startswith("BEGIN:VEVENT")`. -/
def isBeginLine (l : Str) : Bool := (str "BEGIN:VEVENT").isPrefixOf l

/-- `ln.startswith("END:VEVENT")`. -/
def isEndLine (l : Str) : Bool := (str "END:VEVENT").isPrefixOf l

/-- Worker for `parse_events`: the loop over logical lines with state
`(in_evt, cur)`; emits `"\n".join(cur)` blocks at each end marker seen
while accumulating. -/
def parseAux (inEvt : Bool) (cur : List Str) : List Str → List Str
  | [] => []
  | ln :: ls =>
    if isBeginLine ln then parseAux true [ln] ls
    else if isEndLine ln then
      if inEvt then joinNL (cur ++ [ln]) :: parseAux false [] ls
      else parseAux false [] ls
    else
      if inEvt then parseAux inEvt (cur ++ [ln]) ls
      else parseAux inEvt cur ls

/-- The final `(in_evt, cur)` state of `parseAux` after consuming `lines`. -/
def parseState (inEvt : Bool) (cur : List Str) : List Str → Bool × List Str
  | [] => (inEvt, cur)
  | ln :: ls =>
    if isBeginLine ln then parseState true [ln] ls
    else if isEndLine ln then parseState false [] ls
    else
      if inEvt then parseState inEvt (cur ++ [ln]) ls
      else parseState inEvt cur ls

/-- The event blocks extracted from a list of logical lines. -/
def parseLines (lines : List Str) : List Str := parseAux false [] lines

/-- `parse_events(ics_text)`: unfold, then scan for `BEGIN:VEVENT` /
`END:VEVENT` delimited blocks. -/
def parse_events (ics_text : Str) : List Str := parseLines (unfold_ics ics_text)

/-! ## Field extraction -/

/-- Scan lines for the first one of the form `field` ++ nonempty rest
(the regex `field(.+)` anchored at a line start); return the stripped rest.
A line equal to `field` exactly fails the `(.+)` and the search goes on. -/
def scanValue (field : Str) : List Str → Option Str
  | [] => none
  | l :: ls =>
    match stripPre field l with
    | some rest => if rest.isEmpty then scanValue field ls else some (pyStrip rest)
    | none => scanValue field ls

/-- `extract_uid(evt)`: `re.search(r"\nUID:(.+)", evt)`, stripped.  The
leading `\n` in the pattern means only lines after the first are scanned,
and the colon must follow `UID` immediately (no parameter tolerance). -/
def extract_uid (evt : Str) : Option Str :=
  match splitNL evt with
  | [] => none
  | _ :: ls => scanValue (str "UID:") ls

/-- The timestamp character class `[0-9TZW+-]` of the DTSTART regex. -/
def isTSChar (c : Char) : Bool := c ∈ str "0123456789TZW+-"

/-- Leading run of timestamp-set characters of a value. -/
def tsLeading (v : Str) : Str := v.takeWhile isTSChar

/-- The maximal sort sentinel returned when no DTSTART matches. -/
def dtSentinel : Str := str "99999999T000000Z"

/-- Scan lines for `DTSTART[^\n:]*:([0-9TZW+-]+)`: a line starting with
`DTSTART`, whose remainder contains a colon, the first colon being
followed by at least one timestamp-set character; the group is the leading
run of such characters. -/
def dtScan : List Str → Option Str
  | [] => none
  | l :: ls =>
    match stripPre (str "DTSTART") l with
    | some r =>
      match splitFirst ':' r with
      | some (_, v) =>
        match v with
        | c :: _ => if isTSChar c then some (pyStrip (tsLeading v)) else dtScan ls
        | [] => dtScan ls
      | none => dtScan ls
    | none => dtScan ls

/-- `extract_dtstart(evt)`: first `\nDTSTART[^\n:]*:([0-9TZW+-]+)` match,
stripped, or the maximal sentinel `"99999999T000000Z"`. -/
def extract_dtstart (evt : Str) : Str :=
  match splitNL evt with
  | [] => dtSentinel
  | _ :: ls => (dtScan ls).getD dtSentinel

/-- `get_calendar_name(ics_text)`: `\nX-WR-CALNAME:(.+)` over the raw
document text, falling back to `\nPRODID:(.+)`.  Note this runs on the
text as fetched, before any unfolding. -/
def get_calendar_name (ics_text : Str) : Option Str :=
  match splitNL ics_text with
  | [] => none
  | _ :: ls =>
    match scanValue (str "X-WR-CALNAME:") ls with
    | some n => some n
    | none => scanValue (str "PRODID:") ls

/-! ## `_demojibake`: encoding repair -/

/-- `s.encode("latin-1")`: each scalar below 256 becomes one byte; any
other character raises (modelled as `none`). -/
def latin1Bytes : Str → Option (List Nat)
  | [] => some []
  | c :: cs =>
    if c.toNat ≤ 255 then (latin1Bytes cs).map (c.toNat :: ·) else none

/-- Is `b` a UTF-8 continuation byte `0x80..0xBF`? -/
def isCont (b : Nat) : Bool := 0x80 ≤ b && b ≤ 0xBF

/-- `bytes.decode("utf-8")` (strict): well-formed UTF-8 only — overlong
encodings, surrogates and code points above `0x10FFFF` are rejected
(modelled as `none`), exactly the table of RFC 3629. -/
def utf8Decode : List Nat → Option (List Char)
  | [] => some []
  | b :: bs =>
    if b ≤ 0x7F then (utf8Decode bs).map (Char.ofNat b :: ·)
    else if b ≤ 0xC1 then none
    else if b ≤ 0xDF then
      match bs with
      | b2 :: bs2 =>
        if isCont b2 then
          (utf8Decode bs2).map (Char.ofNat ((b - 0xC0) * 0x40 + (b2 - 0x80)) :: ·)
        else none
      | _ => none
    else if b ≤ 0xEF then
      match bs with
      | b2 :: b3 :: bs3 =>
        if (if b = 0xE0 then 0xA0 ≤ b2 && b2 ≤ 0xBF
            else if b = 0xED then 0x80 ≤ b2 && b2 ≤ 0x9F
            else isCont b2) && isCont b3 then
          (utf8Decode bs3).map
            (Char.ofNat ((b - 0xE0) * 0x1000 + (b2 - 0x80) * 0x40 + (b3 - 0x80)) :: ·)
        else none
      | _ => none
    else if b ≤ 0xF4 then
      match bs with
      | b2 :: b3 :: b4 :: bs4 =>
        if (if b = 0xF0 then 0x90 ≤ b2 && b2 ≤ 0xBF
            else if b = 0xF4 then 0x80 ≤ b2 && b2 ≤ 0x8F
            else isCont b2) && isCont b3 && isCont b4 then
          (utf8Decode bs4).map
            (Char.ofNat ((b - 0xF0) * 0x40000 + (b2 - 0x80) * 0x1000 +
                         (b3 - 0x80) * 0x40 + (b4 - 0x80)) :: ·)
        else none
      | _ => none
    else none

/-- The `s.encode("latin-1").decode("utf-8")` round trip. -/
def mojiRoundTrip (s : Str) : Option Str := (latin1Bytes s).bind utf8Decode

/-- `_demojibake(s)`: when the mojibake signature characters `Ã`/`Â` are
present, return the latin-1/UTF-8 round trip; on any failure (or when the
signature is absent) return `s` unchanged. -/
def demojibake (s : Str) : Str :=
  if 'Ã' ∈ s ∨ 'Â' ∈ s then
    match mojiRoundTrip s with
    | some t => t
    | none => s
  else s

/-! ## `add_prefix_to_summary`: summary labelling -/

/-- `re.match(r"^\[[^\]]+\]\s", val)`: an opening bracket, a nonempty
bracket-free run, a closing bracket, then one whitespace character. -/
def bracketGuard (v : Str) : Bool :=
  match v with
  | '[' :: rest =>
    match splitFirst ']' rest with
    | some (inner, after) =>
      (!inner.isEmpty) &&
        (match after with
         | c :: _ => pyIsSpace c
         | [] => false)
    | none => false
  | _ => false

/-- The body of `repl` acting on the summary value: repair mojibake, then
(for a truthy label) prepend `"[label] "` unless the value already starts
with it or with any bracketed prefix. -/
def applyLabel (label : Option Str) (v : Str) : Str :=
  let val := demojibake v
  match label with
  | some l =>
    if l = [] then val
    else
      if ('[' :: l ++ str "] ").isPrefixOf val ∨ bracketGuard val then val
      else '[' :: l ++ ']' :: ' ' :: val

  | none => val

/-- Match one line against `^(SUMMARY[^\n:]*:)(.*)$`: returns the head
group (up to and including the first colon) and the value group. -/
def summaryLineMatch (l : Str) : Option (Str × Str) :=
  match stripPre (str "SUMMARY") l with
  | some r =>
    match splitFirst ':' r with
    | some (q, v) => some (str "SUMMARY" ++ q ++ [':'], v)
    | none => none
  | none => none

/-- `re.sub(pattern, repl, evt, count=1)` on the line structure: rewrite
the first matching line, leave every other line unchanged. -/
def subSummary (label : Option Str) : List Str → List Str
  | [] => []
  | l :: ls =>
    match summaryLineMatch l with
    | some (head, v) => (head ++ applyLabel label v) :: ls
    | none => l :: subSummary label ls

/-- `add_prefix_to_summary(evt, label)`. -/
def add_prefix_to_summary (evt : Str) (label : Option Str) : Str :=
  joinNL (subSummary label (splitNL evt))

/-! ## Sorting (`all_events.sort(key=extract_dtstart)`) -/

/-- Python string `<`: lexicographic comparison by code point, with a
proper prefix comparing smaller. -/
def lexLt : Str → Str → Bool
  | [], [] => false
  | [], _ :: _ => true
  | _ :: _, [] => false
  | a :: as_, b :: bs => if a = b then lexLt as_ bs else decide (a.toNat < b.toNat)

/-- Comparison of event blocks by their extracted DTSTART key. -/
def evtLt (a b : Str) : Bool := lexLt (extract_dtstart a) (extract_dtstart b)

/-- Stable insertion: `x` goes in front of the first strictly greater
element, hence after every earlier element with an equal key. -/
def insEvt (x : Str) : List Str → List Str
  | [] => [x]
  | y :: ys => if evtLt x y then x :: y :: ys else y :: insEvt x ys

/-- `list.sort(key=extract_dtstart)`: Python's sort is stable and compares
keys with `<`; any stable sort is extensionally determined by that, and is
modelled here by stable insertion sort. -/
def sortEvents (l : List Str) : List Str := l.foldl (fun acc x => insEvt x acc) []

/-! ## The merge engine (`main`'s loop) -/

/-- `extract_uid(e) or f"NOUID-{hash(e)}"`: Python's `or` takes the
fallback when the UID is absent *or* empty (falsy).  `hashF` models
`str(hash(e))` — Python's randomised string hash is outside the program
text, so it is an arbitrary parameter of the run. -/
def uidAssign (hashF : Str → Str) (e : Str) : Str :=
  match extract_uid e with
  | some u => if u = [] then str "NOUID-" ++ hashF e else u
  | none => str "NOUID-" ++ hashF e

/-- `labels[idx] if idx < len(labels) else (get_calendar_name(txt) or None)`:
the effective label of source number `idx` with text `txt`. -/
def effLabel (labels : List Str) (idx : Nat) (txt : Str) : Option Str :=
  match labels[idx]? with
  | some l => some l
  | none =>
    match get_calendar_name txt with
    | some n => if n = [] then none else some n
    | none => none

/-- The per-source event loop: thread the `seen` set through the events of
one source, skipping blocks whose assigned identity was already seen, and
labelling and appending the others.  Returns the final `seen` set and the
`(identity, labelled block)` pairs appended by this source. -/
def dedupEvents (hashF : Str → Str) (label : Option Str) (seen : List Str) :
    List Str → List Str × List (Str × Str)
  | [] => (seen, [])
  | e :: es =>
    let uid := uidAssign hashF e
    if uid ∈ seen then dedupEvents hashF label seen es
    else
      let (s', o) := dedupEvents hashF label (uid :: seen) es
      (s', (uid, add_prefix_to_summary e label) :: o)

/-- The source loop of `main`: for each fetched document in order, compute
the effective label, parse its event blocks, and dedup/label/append them. -/
def mergeDocs (hashF : Str → Str) (labels : List Str) (idx : Nat)
    (seen : List Str) : List Str → List (Str × Str)
  | [] => []
  | d :: ds =>
    let (seen', out) := dedupEvents hashF (effLabel labels idx d) seen (parse_events d)
    out ++ mergeDocs hashF labels (idx + 1) seen' ds

/-- The accumulated `(identity, labelled block)` list before sorting
(`all_events` of the source, instrumented with the identity that guarded
each block's admission). -/
def mergeAccum (hashF : Str → Str) (labels : List Str) (docs : List Str) :
    List (Str × Str) :=
  mergeDocs hashF labels 0 [] docs

/-- The merged, deduplicated, sorted event list (`all_events` after
`all_events.sort(key=extract_dtstart)`). -/
def mergeEvents (hashF : Str → Str) (labels : List Str) (docs : List Str) :
    List Str :=
  sortEvents ((mergeAccum hashF labels docs).map (·.2))

/-- `build_calendar(name, events_sorted)`: fixed header, events verbatim,
end marker, newline-terminated. -/
def build_calendar (name : Str) (events_sorted : List Str) : Str :=
  joinNL ([str "BEGIN:VCALENDAR",
           str "PRODID:-//ics-merger//github//",
           str "VERSION:2.0",
           str "CALSCALE:GREGORIAN",
           str "X-WR-CALNAME:" ++ name,
           str "METHOD:PUBLISH"] ++
          events_sorted ++ [str "END:VCALENDAR"]) ++ ['\n']

/-! ## Reference forms used by the claims -/

/-- The full labelled block stream of a run, pre-dedup, in processing
order (source order, then block order), each block paired with its
assigned identity: the reference stream the first-seen-wins dedup and the
claims are stated against. -/
def srcStream (hashF : Str → Str) (labels : List Str) (idx : Nat) :
    List Str → List (Str × Str)
  | [] => []
  | d :: ds =>
    (parse_events d).map
        (fun e => (uidAssign hashF e, add_prefix_to_summary e (effLabel labels idx d)))
      ++ srcStream hashF labels (idx + 1) ds

/-- Generic first-seen-wins dedup on `(key, value)` pairs. -/
def dedupPairs (seen : List Str) : List (Str × Str) → List (Str × Str)
  | [] => []
  | (k, v) :: ps =>
    if k ∈ seen then dedupPairs seen ps
    else (k, v) :: dedupPairs (k :: seen) ps

/-- The `seen` set after first-seen-wins dedup has consumed a pair list. -/
def seenAfter (seen : List Str) : List (Str × Str) → List Str
  | [] => seen
  | (k, _) :: ps => if k ∈ seen then seenAfter seen ps else seenAfter (k :: seen) ps

/-- Count of pairs with key `u`. -/
def countKey (u : Str) (l : List (Str × Str)) : Nat :=
  l.countP (fun p => decide (p.1 = u))

/-- First pair with key `u`. -/
def findKey (u : Str) (l : List (Str × Str)) : Option (Str × Str) :=
  l.find? (fun p => decide (p.1 = u))

/-- Count of occurrences of a block in a list. -/
def countBlk (b : Str) (l : List Str) : Nat :=
  l.countP (fun x => decide (x = b))

/-! ## Folding (for the unfold/fold inverse claim) -/

/-- Concatenation of the pieces of one folded logical line. -/
def concatP (pl : List Str) : Str := pl.foldr (· ++ ·) []

/-- RFC 5545 folding of one logical line given as its split pieces: the
first piece verbatim, every continuation piece prefixed by one space. -/
def foldPieces : List Str → List Str
  | [] => []
  | p :: ps => p :: ps.map (' ' :: ·)

/-- Serialize physical lines as a newline-terminated text (each ICS
physical line ends with a line break). -/
def foldText (pls : List (List Str)) : Str :=
  ((pls.flatMap foldPieces).map (· ++ ['\n'])).flatten

/-- An event block's first line. -/
def firstLine (b : Str) : Str := (splitNL b).headD []

/-- An event block's last line. -/
def lastLine (b : Str) : Str := (splitNL b).getLastD []

/-- Keys that sort as dated: nonempty and opening with a year digit 0–8
(code points 48–56; every such key precedes the sentinel
lexicographically, whose first character is the digit 9). -/
def isDated (k : Str) : Bool :=
  match k with
  | c :: _ => decide ('0'.toNat ≤ c.toNat ∧ c.toNat ≤ '8'.toNat)
  | [] => false

/-! ## Concrete documents used in examples, counterexamples and witnesses -/

/-- A concrete injective stand-in for `str(hash(·))` in closed runs: the
block's own text (Python's randomised string hash is a run parameter). -/
def cHash : Str → Str := fun e => e

/-- Source A of the dedup example: one event with identity `X-1`. -/
def dedupDocA : Str :=
  str "BEGIN:VCALENDAR\nBEGIN:VEVENT\nUID:X-1\nSUMMARY:Meeting\nEND:VEVENT\nEND:VCALENDAR"

/-- Source B of the dedup example: a different event with the same
identity `X-1`. -/
def dedupDocB : Str :=
  str "BEGIN:VCALENDAR\nBEGIN:VEVENT\nUID:X-1\nSUMMARY:Other\nEND:VEVENT\nEND:VCALENDAR"

/-- One source holding three events whose DTSTART values appear in the
input order 20240105T100000Z, 20240102T100000Z, 20240102T090000Z. -/
def sortDoc : Str :=
  str "BEGIN:VCALENDAR\nBEGIN:VEVENT\nUID:e1\nDTSTART:20240105T100000Z\nEND:VEVENT\nBEGIN:VEVENT\nUID:e2\nDTSTART:20240102T100000Z\nEND:VEVENT\nBEGIN:VEVENT\nUID:e3\nDTSTART:20240102T090000Z\nEND:VEVENT\nEND:VCALENDAR"

/-- An event block whose UID line carries a parameter before the colon. -/
def paramUIDBlock : Str := str "BEGIN:VEVENT\nUID;X=1:abc-123\nEND:VEVENT"

/-- An event block with a DTSTART line whose value has an empty leading
run of timestamp-set characters. -/
def badDTBlock : Str := str "BEGIN:VEVENT\nDTSTART:abc\nEND:VEVENT"

/-- An event block whose summary value is doubly mojibake-encoded (the
repair of it still contains the signature character `Ã`). -/
def doubleMojiBlock : Str := str "BEGIN:VEVENT\nUID:u1\nSUMMARY:Ã\x83Â¶\nEND:VEVENT"

/-- A document whose calendar display name is folded across two physical
lines (logical value `My Calendar`). -/
def foldedNameDoc : Str :=
  str "BEGIN:VCALENDAR\nX-WR-CALNAME:My Ca\n lendar\nEND:VCALENDAR"

/-- A source with two distinct events whose UID lines are blank
(whitespace-only value and empty value). -/
def blankUIDDoc : Str :=
  str "BEGIN:VCALENDAR\nBEGIN:VEVENT\nUID:   \nSUMMARY:First\nEND:VEVENT\nBEGIN:VEVENT\nUID:\nSUMMARY:Second\nEND:VEVENT\nEND:VCALENDAR"

/-! ## Basic lemmas on the string helpers -/

theorem stripPre_eq_some {p : Str} : ∀ {l r : Str}, stripPre p l = some r ↔ l = p ++ r := by
  induction p with
  | nil => intro l r; simp [stripPre]
  | cons c cs ih =>
    intro l r
    cases l with
    | nil => simp [stripPre]
    | cons x xs =>
      by_cases hx : c = x
      · subst hx; simp [stripPre, ih]
      · simp [stripPre, hx, Ne.symm hx]

theorem stripPre_append (p r : Str) : stripPre p (p ++ r) = some r :=
  stripPre_eq_some.mpr rfl

theorem stripPre_none_of_not_prefix {p l : Str} (h : p.isPrefixOf l = false) :
    stripPre p l = none := by
  cases hs : stripPre p l with
  | none => rfl
  | some r =>
    have hl : l = p ++ r := stripPre_eq_some.mp hs
    have : p.isPrefixOf l = true := by
      subst hl; exact List.isPrefixOf_iff_prefix.mpr (List.prefix_append p r)
    rw [this] at h; cases h

theorem splitFirst_append {c : Char} {a : Str} (b : Str) (h : c ∉ a) :
    splitFirst c (a ++ c :: b) = some (a, b) := by
  induction a with
  | nil => simp [splitFirst]
  | cons x xs ih =>
    have hxc : ¬x = c := fun hx => h (hx ▸ List.mem_cons_self x xs)
    have hih := ih (fun hm => h (List.mem_cons_of_mem x hm))
    simp [splitFirst, hxc, hih]

theorem splitFirst_eq_some {c : Char} : ∀ {l a b : Str},
    splitFirst c l = some (a, b) → l = a ++ c :: b ∧ c ∉ a := by
  intro l
  induction l with
  | nil => intro a b h; simp [splitFirst] at h
  | cons x xs ih =>
    intro a b h
    by_cases hx : x = c
    · subst hx
      simp [splitFirst] at h
      rcases h with ⟨ha, hb⟩
      subst ha; subst hb; simp
    · simp [splitFirst, hx] at h
      cases hsf : splitFirst c xs with
      | none => rw [hsf] at h; simp at h
      | some p =>
        rw [hsf] at h
        rcases p with ⟨a', b'⟩
        simp at h
        rcases h with ⟨ha, hb⟩
        rcases ih hsf with ⟨hxs, hni⟩
        subst ha; subst hb; subst hxs
        refine ⟨by simp, ?_⟩
        intro hm
        rcases List.mem_cons.mp hm with h1 | h2
        · exact hx h1.symm
        · exact hni h2

theorem splitFirst_eq_none {c : Char} : ∀ {l : Str}, splitFirst c l = none ↔ c ∉ l := by
  intro l
  induction l with
  | nil => simp [splitFirst]
  | cons x xs ih =>
    by_cases hx : x = c
    · subst hx; simp [splitFirst]
    · simp [splitFirst, hx, Ne.symm hx]
      cases hsf : splitFirst c xs with
      | none => simpa using ih.mp hsf
      | some p =>
        simp
        have hw := splitFirst_eq_some hsf
        rw [hw.1]
        simp

/-! ## Lemmas on line splitting and joining -/

theorem joinNL_cons {ls : List Str} (l : Str) (h : ls ≠ []) :
    joinNL (l :: ls) = l ++ '\n' :: joinNL ls := by
  cases ls with
  | nil => exact absurd rfl h
  | cons a as => rfl

theorem splitNLAux_ne_nil : ∀ (s cur : Str), splitNLAux cur s ≠ [] := by
  intro s
  induction s with
  | nil => intro cur; simp [splitNLAux]
  | cons c rest ih =>
    intro cur
    by_cases hc : c = '\n'
    · simp [splitNLAux, hc]
    · simp [splitNLAux, hc]; exact ih _

theorem splitNLAux_append {l : Str} (h : '\n' ∉ l) :
    ∀ (cur s : Str), splitNLAux cur (l ++ s) = splitNLAux (l.reverse ++ cur) s := by
  induction l with
  | nil => intro cur s; simp
  | cons c cs ih =>
    intro cur s
    have hc : ¬c = '\n' := fun hv => h (hv ▸ List.mem_cons_self c cs)
    have hcs : '\n' ∉ cs := fun hm => h (List.mem_cons_of_mem c hm)
    show splitNLAux cur (c :: (cs ++ s)) = splitNLAux ((c :: cs).reverse ++ cur) s
    rw [splitNLAux, if_neg hc, ih hcs]
    congr 1
    simp

theorem splitNL_joinNL : ∀ {ls : List Str}, (∀ l ∈ ls, '\n' ∉ l) → ls ≠ [] →
    splitNL (joinNL ls) = ls := by
  intro ls
  induction ls with
  | nil => intro _ h; exact absurd rfl h
  | cons l ls ih =>
    intro hfree _
    have hl : '\n' ∉ l := hfree l (List.mem_cons_self l ls)
    cases ls with
    | nil =>
      show splitNLAux [] (joinNL [l]) = [l]
      have : joinNL [l] = l ++ [] := by simp [joinNL]
      rw [this, splitNLAux_append hl]
      simp [splitNLAux]
    | cons l2 ls2 =>
      rw [joinNL_cons l (by simp)]
      show splitNLAux [] (l ++ '\n' :: joinNL (l2 :: ls2)) = l :: l2 :: ls2
      rw [splitNLAux_append hl]
      have h2 := ih (fun x hx => hfree x (List.mem_cons_of_mem l hx)) (by simp)
      simp only [splitNL] at h2
      simp [splitNLAux, h2]

theorem mem_splitNLAux_chars : ∀ {s cur l : Str} {c : Char},
    l ∈ splitNLAux cur s → c ∈ l → c ∈ cur ∨ c ∈ s := by
  intro s
  induction s with
  | nil =>
    intro cur l c hl hc
    simp [splitNLAux] at hl
    subst hl
    exact Or.inl (List.mem_reverse.mp hc)
  | cons x xs ih =>
    intro cur l c hl hc
    by_cases hx : x = '\n'
    · rw [splitNLAux, if_pos hx] at hl
      rcases List.mem_cons.mp hl with h1 | h2
      · subst h1; exact Or.inl (List.mem_reverse.mp hc)
      · rcases ih h2 hc with h3 | h3
        · cases h3
        · exact Or.inr (List.mem_cons_of_mem x h3)
    · rw [splitNLAux, if_neg hx] at hl
      rcases ih hl hc with h3 | h3
      · rcases List.mem_cons.mp h3 with h4 | h4
        · subst h4; exact Or.inr (List.mem_cons_self c xs)
        · exact Or.inl h4
      · exact Or.inr (List.mem_cons_of_mem x h3)

theorem mem_splitNL_chars {s l : Str} {c : Char} (hl : l ∈ splitNL s) (hc : c ∈ l) :
    c ∈ s := by
  rcases mem_splitNLAux_chars hl hc with h | h
  · cases h
  · exact h

theorem splitNLAux_no_nl : ∀ {s cur l : Str}, l ∈ splitNLAux cur s → '\n' ∉ cur →
    '\n' ∉ l := by
  intro s
  induction s with
  | nil =>
    intro cur l hl hcur
    simp [splitNLAux] at hl
    subst hl
    simpa using hcur
  | cons x xs ih =>
    intro cur l hl hcur
    by_cases hx : x = '\n'
    · rw [splitNLAux, if_pos hx] at hl
      rcases List.mem_cons.mp hl with h1 | h2
      · subst h1; simpa using hcur
      · exact ih h2 (by simp)
    · rw [splitNLAux, if_neg hx] at hl
      exact ih hl (by
        intro hm
        rcases List.mem_cons.mp hm with h1 | h2
        · exact hx h1.symm
        · exact hcur h2)

theorem splitNL_no_nl {s l : Str} (hl : l ∈ splitNL s) : '\n' ∉ l :=
  splitNLAux_no_nl hl (by simp)

theorem splitNL_ne_nil (s : Str) : splitNL s ≠ [] := splitNLAux_ne_nil s []

/-! ## Lemmas on `splitlines` and `unfold_ics` -/

theorem splitlinesAux_line {l : Str} (h : ∀ c ∈ l, isLineBreak c = false) :
    ∀ (cur s : Str),
      splitlinesAux false cur (l ++ '\n' :: s) = (cur.reverse ++ l) :: splitlinesAux false [] s := by
  induction l with
  | nil =>
    intro cur s
    rw [List.nil_append, splitlinesAux]
    rw [if_neg (by simp), if_neg (by decide), if_pos (by decide)]
    simp
  | cons c cs ih =>
    intro cur s
    have hc : isLineBreak c = false := h c (List.mem_cons_self c cs)
    have hcr : ¬c = '\r' := by
      intro hv; rw [hv] at hc; simp [isLineBreak] at hc
    have hcs : ∀ x ∈ cs, isLineBreak x = false := fun x hx => h x (List.mem_cons_of_mem c hx)
    show splitlinesAux false cur (c :: (cs ++ '\n' :: s)) = _
    rw [splitlinesAux, if_neg (by simp), if_neg hcr, if_neg (by simp [hc]), ih hcs]
    simp

theorem splitlinesAux_last {l : Str} (h : ∀ c ∈ l, isLineBreak c = false) :
    ∀ cur : Str,
      splitlinesAux false cur l =
        if cur.reverse ++ l = [] then [] else [cur.reverse ++ l] := by
  induction l with
  | nil =>
    intro cur
    rw [splitlinesAux]
    rcases Decidable.em (cur = []) with h | h <;> simp [h, List.isEmpty_iff]
  | cons c cs ih =>
    intro cur
    have hc : isLineBreak c = false := h c (List.mem_cons_self c cs)
    have hcr : ¬c = '\r' := by
      intro hv; rw [hv] at hc; simp [isLineBreak] at hc
    have hcs : ∀ x ∈ cs, isLineBreak x = false := fun x hx => h x (List.mem_cons_of_mem c hx)
    rw [splitlinesAux, if_neg (by simp), if_neg hcr, if_neg (by simp [hc]), ih hcs]
    simp

theorem splitlines_joinNL : ∀ {ls : List Str},
    (∀ l ∈ ls, ∀ c ∈ l, isLineBreak c = false) → ls ≠ [] → ls.getLast? ≠ some [] →
    splitlines (joinNL ls) = ls := by
  intro ls
  induction ls with
  | nil => intro _ h _; exact absurd rfl h
  | cons l ls ih =>
    intro hfree _ hlast
    cases ls with
    | nil =>
      have hl : l ≠ [] := by
        intro hv; rw [hv] at hlast; simp at hlast
      show splitlinesAux false [] (joinNL [l]) = [l]
      have hjl : joinNL [l] = l := rfl
      rw [hjl, splitlinesAux_last (hfree l (List.mem_cons_self l [])) []]
      simp [hl]
    | cons l2 ls2 =>
      rw [joinNL_cons l (by simp)]
      show splitlinesAux false [] (l ++ '\n' :: joinNL (l2 :: ls2)) = l :: l2 :: ls2
      rw [splitlinesAux_line (hfree l (List.mem_cons_self l _)) []]
      have h2 := ih (fun x hx => hfree x (List.mem_cons_of_mem l hx)) (by simp)
        (by simpa using hlast)
      simp only [splitlines] at h2
      simp [h2]

theorem physJoin_cons (l : Str) (ls : List Str) :
    ((l :: ls).map (· ++ ['\n'])).flatten = l ++ '\n' :: (ls.map (· ++ ['\n'])).flatten := by
  simp

theorem splitlines_phys : ∀ {ls : List Str},
    (∀ l ∈ ls, ∀ c ∈ l, isLineBreak c = false) →
    splitlines ((ls.map (· ++ ['\n'])).flatten) = ls := by
  intro ls
  induction ls with
  | nil => intro _; simp [splitlines, splitlinesAux]
  | cons l ls ih =>
    intro hfree
    rw [physJoin_cons]
    show splitlinesAux false [] (l ++ '\n' :: (ls.map (· ++ ['\n'])).flatten) = l :: ls
    rw [splitlinesAux_line (hfree l (List.mem_cons_self l _)) []]
    have h2 := ih (fun x hx => hfree x (List.mem_cons_of_mem l hx))
    simp only [splitlines] at h2
    simp [h2]

theorem splitlinesAux_mem_nonbreak : ∀ {s : Str} {a : Bool} {cur l : Str},
    (∀ c ∈ cur, isLineBreak c = false) → l ∈ splitlinesAux a cur s →
    ∀ c ∈ l, isLineBreak c = false := by
  intro s
  induction s with
  | nil =>
    intro a cur l hcur hl
    by_cases hc : cur.isEmpty <;> simp [splitlinesAux, hc] at hl
    subst hl
    intro c hc2
    exact hcur c (List.mem_reverse.mp hc2)
  | cons x xs ih =>
    intro a cur l hcur hl
    rw [splitlinesAux] at hl
    by_cases h1 : a = true ∧ x = '\n'
    · rw [if_pos h1] at hl
      exact ih hcur hl
    · rw [if_neg h1] at hl
      by_cases h2 : x = '\r'
      · rw [if_pos h2] at hl
        rcases List.mem_cons.mp hl with h3 | h3
        · subst h3; intro c hc2; exact hcur c (List.mem_reverse.mp hc2)
        · exact ih (by simp) h3
      · rw [if_neg h2] at hl
        by_cases h3 : isLineBreak x
        · rw [if_pos h3] at hl
          rcases List.mem_cons.mp hl with h4 | h4
          · subst h4; intro c hc2; exact hcur c (List.mem_reverse.mp hc2)
          · exact ih (by simp) h4
        · rw [if_neg h3] at hl
          refine ih ?_ hl
          intro c hc2
          rcases List.mem_cons.mp hc2 with h4 | h4
          · subst h4; simpa using h3
          · exact hcur c h4

theorem splitlines_mem_nonbreak {s l : Str} (hl : l ∈ splitlines s) :
    ∀ c ∈ l, isLineBreak c = false :=
  splitlinesAux_mem_nonbreak (by simp) hl

theorem unfoldAux_mem_nonbreak : ∀ {ls : List Str} {acc : List Str} {l : Str},
    (∀ x ∈ acc, ∀ c ∈ x, isLineBreak c = false) →
    (∀ x ∈ ls, ∀ c ∈ x, isLineBreak c = false) →
    l ∈ unfoldAux acc ls → ∀ c ∈ l, isLineBreak c = false := by
  intro ls
  induction ls with
  | nil =>
    intro acc l hacc _ hl
    rw [unfoldAux] at hl
    exact hacc l (List.mem_reverse.mp hl)
  | cons x xs ih =>
    intro acc l hacc hls hl
    have hx : ∀ c ∈ x, isLineBreak c = false := hls x (List.mem_cons_self x xs)
    have hxs : ∀ y ∈ xs, ∀ c ∈ y, isLineBreak c = false :=
      fun y hy => hls y (List.mem_cons_of_mem x hy)
    cases acc with
    | nil =>
      simp only [unfoldAux] at hl
      refine ih ?_ hxs hl
      intro y hy
      rcases List.mem_cons.mp hy with h1 | h1
      · subst h1; exact hx
      · simp at h1
    | cons h t =>
      simp only [unfoldAux] at hl
      by_cases hsp : startsSpace x
      · rw [if_pos hsp] at hl
        refine ih ?_ hxs hl
        intro y hy
        rcases List.mem_cons.mp hy with h1 | h1
        · subst h1
          intro c hc
          rcases List.mem_append.mp hc with h2 | h2
          · exact hacc h (List.mem_cons_self h t) c h2
          · exact hx c (List.mem_of_mem_tail h2)
        · exact hacc y (List.mem_cons_of_mem h h1)
      · rw [if_neg hsp] at hl
        refine ih ?_ hxs hl
        intro y hy
        rcases List.mem_cons.mp hy with h1 | h1
        · subst h1; exact hx
        · exact hacc y h1

theorem unfold_nonbreak {t l : Str} (hl : l ∈ unfold_ics t) :
    ∀ c ∈ l, isLineBreak c = false :=
  unfoldAux_mem_nonbreak (by simp) (fun x hx => splitlines_mem_nonbreak hx) hl

theorem unfold_no_nl {t l : Str} (hl : l ∈ unfold_ics t) : '\n' ∉ l := by
  intro hm
  have := unfold_nonbreak hl '\n' hm
  simp [isLineBreak] at this

/-! ## Lemmas on event block extraction -/

theorem not_begin_of_end {l : Str} (h : isEndLine l = true) : isBeginLine l = false := by
  rcases List.isPrefixOf_iff_prefix.mp h with ⟨t, ht⟩
  rw [isBeginLine, ← ht]
  show ('B' :: str "EGIN:VEVENT").isPrefixOf ('E' :: (str "ND:VEVENT" ++ t)) = false
  simp [List.isPrefixOf, show ('B' == 'E') = false from by decide]

theorem parseAux_append : ∀ (xs ys : List Str) (inEvt : Bool) (cur : List Str),
    parseAux inEvt cur (xs ++ ys) =
      parseAux inEvt cur xs ++
        parseAux (parseState inEvt cur xs).1 (parseState inEvt cur xs).2 ys := by
  intro xs
  induction xs with
  | nil => intro ys inEvt cur; simp [parseAux, parseState]
  | cons ln ls ih =>
    intro ys inEvt cur
    simp only [List.cons_append, parseAux, parseState]
    by_cases hb : isBeginLine ln
    · simp [hb, ih]
    · by_cases he : isEndLine ln
      · by_cases hi : inEvt <;> simp [hb, he, hi, ih]
      · by_cases hi : inEvt <;> simp [hb, he, hi, ih]

theorem parseAux_no_end : ∀ (ys : List Str) (inEvt : Bool) (cur : List Str),
    (∀ l ∈ ys, isEndLine l = false) → parseAux inEvt cur ys = [] := by
  intro ys
  induction ys with
  | nil => intro inEvt cur _; rfl
  | cons ln ls ih =>
    intro inEvt cur h
    have he : isEndLine ln = false := h ln (List.mem_cons_self ln ls)
    have hls : ∀ l ∈ ls, isEndLine l = false := fun l hl => h l (List.mem_cons_of_mem ln hl)
    by_cases hb : isBeginLine ln
    · simp [parseAux, hb, ih _ _ hls]
    · by_cases hi : inEvt <;> simp [parseAux, hb, he, hi, ih _ _ hls]

theorem parseLines_drop_neutral : ∀ (pre ls : List Str),
    (∀ l ∈ pre, isBeginLine l = false) → parseLines (pre ++ ls) = parseLines ls := by
  intro pre
  induction pre with
  | nil => intro ls _; rfl
  | cons l pre' ih =>
    intro ls h
    have hb : isBeginLine l = false := h l (List.mem_cons_self l pre')
    have hpre : ∀ x ∈ pre', isBeginLine x = false := fun x hx => h x (List.mem_cons_of_mem l hx)
    by_cases he : isEndLine l <;>
      simp [parseLines, parseAux, hb, he, ih ls hpre, parseLines] <;>
      exact ih ls hpre

theorem parseAux_block_shape : ∀ (lines : List Str) (inEvt : Bool) (cur : List Str),
    (∀ l ∈ lines, '\n' ∉ l) → (∀ l ∈ cur, '\n' ∉ l) →
    (inEvt = true → ∃ c0 cs, cur = c0 :: cs ∧ isBeginLine c0 = true) →
    ∀ b ∈ parseAux inEvt cur lines,
      isBeginLine (firstLine b) = true ∧ isEndLine (lastLine b) = true := by
  intro lines
  induction lines with
  | nil => intro inEvt cur _ _ _ b hb; simp [parseAux] at hb
  | cons ln ls ih =>
    intro inEvt cur hfree hcur hinv b hb
    have hln : '\n' ∉ ln := hfree ln (List.mem_cons_self ln ls)
    have hls : ∀ l ∈ ls, '\n' ∉ l := fun l hl => hfree l (List.mem_cons_of_mem ln hl)
    by_cases h1 : isBeginLine ln
    · rw [parseAux, if_pos h1] at hb
      refine ih true [ln] hls ?_ ?_ b hb
      · intro l hl
        rcases List.mem_cons.mp hl with h2 | h2
        · subst h2; exact hln
        · simp at h2
      · intro _; exact ⟨ln, [], rfl, h1⟩
    · by_cases h2 : isEndLine ln
      · rw [parseAux, if_neg h1, if_pos h2] at hb
        cases hi : inEvt with
        | true =>
          rw [hi, if_pos rfl] at hb
          rcases List.mem_cons.mp hb with h3 | h3
          · subst h3
            rcases hinv hi with ⟨c0, cs, hcur0, hc0⟩
            have hall : ∀ l ∈ cur ++ [ln], '\n' ∉ l := by
              intro l hl
              rcases List.mem_append.mp hl with h4 | h4
              · exact hcur l h4
              · rcases List.mem_singleton.mp h4 with h5
                rw [h5]; exact hln
            have hsj : splitNL (joinNL (cur ++ [ln])) = cur ++ [ln] :=
              splitNL_joinNL hall (by simp)
            constructor
            · rw [firstLine, hsj, hcur0]
              simp [hc0]
            · rw [lastLine, hsj]
              simp [h2]
          · exact ih false [] hls (by simp) (by simp) b h3
        | false =>
          rw [hi, if_neg (by simp)] at hb
          exact ih false [] hls (by simp) (by simp) b hb
      · rw [parseAux, if_neg h1, if_neg h2] at hb
        cases hi : inEvt with
        | true =>
          rw [hi, if_pos rfl] at hb
          refine ih true (cur ++ [ln]) hls ?_ ?_ b hb
          · intro l hl
            rcases List.mem_append.mp hl with h4 | h4
            · exact hcur l h4
            · rcases List.mem_singleton.mp h4 with h5
              rw [h5]; exact hln
          · intro _
            rcases hinv hi with ⟨c0, cs, hcur0, hc0⟩
            exact ⟨c0, cs ++ [ln], by rw [hcur0]; simp, hc0⟩
        | false =>
          rw [hi, if_neg (by simp)] at hb
          exact ih false cur hls hcur (by simp) b hb

/-! ## Lemmas on field extraction -/

theorem scanValue_first {field v : Str} (ls : List Str) (hv : v ≠ []) :
    scanValue field ((field ++ v) :: ls) = some (pyStrip v) := by
  rw [scanValue, stripPre_append]
  simp [List.isEmpty_iff, hv]

theorem scanValue_none {field : Str} : ∀ {ls : List Str},
    (∀ l ∈ ls, field.isPrefixOf l = false) → scanValue field ls = none := by
  intro ls
  induction ls with
  | nil => intro _; rfl
  | cons l ls ih =>
    intro h
    rw [scanValue, stripPre_none_of_not_prefix (h l (List.mem_cons_self l ls))]
    exact ih (fun x hx => h x (List.mem_cons_of_mem l hx))

theorem dropWhile_of_all_false {p : Char → Bool} {l : Str}
    (h : ∀ x ∈ l, p x = false) : l.dropWhile p = l := by
  cases l with
  | nil => rfl
  | cons c cs => simp [List.dropWhile_cons, h c (List.mem_cons_self c cs)]

theorem pyStrip_noSpace {s : Str} (h : ∀ x ∈ s, pyIsSpace x = false) : pyStrip s = s := by
  rw [pyStrip, dropWhile_of_all_false h,
    dropWhile_of_all_false (fun x hx => h x (List.mem_reverse.mp hx)), List.reverse_reverse]

theorem pyIsSpace_of_ts {x : Char} (h : isTSChar x = true) : pyIsSpace x = false := by
  rw [isTSChar] at h
  have hm : x ∈ str "0123456789TZW+-" := of_decide_eq_true h
  have hm2 : x ∈ ['0','1','2','3','4','5','6','7','8','9','T','Z','W','+','-'] := hm
  fin_cases hm2 <;> decide

theorem pyStrip_tsLeading (v : Str) : pyStrip (tsLeading v) = tsLeading v := by
  refine pyStrip_noSpace ?_
  intro x hx
  exact pyIsSpace_of_ts (List.mem_takeWhile_imp hx)

theorem dtScan_none : ∀ {ls : List Str},
    (∀ l ∈ ls, (str "DTSTART").isPrefixOf l = false) → dtScan ls = none := by
  intro ls
  induction ls with
  | nil => intro _; rfl
  | cons l ls ih =>
    intro h
    rw [dtScan, stripPre_none_of_not_prefix (h l (List.mem_cons_self l ls))]
    exact ih (fun x hx => h x (List.mem_cons_of_mem l hx))

theorem dtScan_first {q v' : Str} {c : Char} (ls : List Str) (hq : ':' ∉ q)
    (hc : isTSChar c = true) :
    dtScan ((str "DTSTART" ++ q ++ ':' :: c :: v') :: ls) = some (tsLeading (c :: v')) := by
  simp [dtScan, List.append_assoc, stripPre_append, splitFirst_append (c :: v') hq, hc,
    pyStrip_tsLeading]

theorem extract_uid_absent {ls : List Str} (hnl : ∀ l ∈ ls, '\n' ∉ l) (hne : ls ≠ [])
    (h : ∀ l ∈ ls, (str "UID:").isPrefixOf l = false) :
    extract_uid (joinNL ls) = none := by
  rw [extract_uid, splitNL_joinNL hnl hne]
  cases ls with
  | nil => exact absurd rfl hne
  | cons l0 ls' =>
    exact scanValue_none (fun x hx => h x (List.mem_cons_of_mem l0 hx))

theorem extract_dtstart_absent {ls : List Str} (hnl : ∀ l ∈ ls, '\n' ∉ l) (hne : ls ≠ [])
    (h : ∀ l ∈ ls, (str "DTSTART").isPrefixOf l = false) :
    extract_dtstart (joinNL ls) = dtSentinel := by
  rw [extract_dtstart, splitNL_joinNL hnl hne]
  cases ls with
  | nil => exact absurd rfl hne
  | cons l0 ls' =>
    show (dtScan ls').getD dtSentinel = dtSentinel
    rw [dtScan_none (fun x hx => h x (List.mem_cons_of_mem l0 hx))]
    rfl

theorem extract_dtstart_param {l0 q v' : Str} {c : Char} (rest : List Str)
    (h0 : '\n' ∉ l0) (hq : ':' ∉ q) (hqn : '\n' ∉ q) (hc : isTSChar c = true)
    (hvn : '\n' ∉ v') (hcn : ¬c = '\n') (hr : ∀ l ∈ rest, '\n' ∉ l) :
    extract_dtstart (joinNL (l0 :: (str "DTSTART" ++ q ++ ':' :: c :: v') :: rest)) =
      tsLeading (c :: v') := by
  have hline : '\n' ∉ str "DTSTART" ++ q ++ ':' :: c :: v' := by
    intro hm
    rcases List.mem_append.mp hm with h1 | h1
    · rcases List.mem_append.mp h1 with h2 | h2
      · exact absurd h2 (by decide)
      · exact hqn h2
    · rcases List.mem_cons.mp h1 with h2 | h2
      · exact absurd h2 (by decide)
      · rcases List.mem_cons.mp h2 with h3 | h3
        · exact hcn h3.symm
        · exact hvn h3
  have hall : ∀ l ∈ l0 :: (str "DTSTART" ++ q ++ ':' :: c :: v') :: rest, '\n' ∉ l := by
    intro l hl
    rcases List.mem_cons.mp hl with h1 | h1
    · subst h1; exact h0
    · rcases List.mem_cons.mp h1 with h2 | h2
      · subst h2; exact hline
      · exact hr l h2
  rw [extract_dtstart, splitNL_joinNL hall (by simp)]
  show (dtScan ((str "DTSTART" ++ q ++ ':' :: c :: v') :: rest)).getD dtSentinel = _
  rw [dtScan_first rest hq hc]
  rfl

theorem get_calendar_name_folded {l0 a : Str} (rest : List Str) (ha : a ≠ [])
    (h0 : '\n' ∉ l0) (hA : '\n' ∉ a) (hr : ∀ l ∈ rest, '\n' ∉ l) :
    get_calendar_name (joinNL (l0 :: (str "X-WR-CALNAME:" ++ a) :: rest)) =
      some (pyStrip a) := by
  have hall : ∀ l ∈ l0 :: (str "X-WR-CALNAME:" ++ a) :: rest, '\n' ∉ l := by
    intro l hl
    rcases List.mem_cons.mp hl with h1 | h1
    · subst h1; exact h0
    · rcases List.mem_cons.mp h1 with h2 | h2
      · subst h2
        intro hm
        rcases List.mem_append.mp hm with h3 | h3
        · exact absurd h3 (by decide)
        · exact hA h3
      · exact hr l h2
  rw [get_calendar_name, splitNL_joinNL hall (by simp)]
  show (match scanValue (str "X-WR-CALNAME:") ((str "X-WR-CALNAME:" ++ a) :: rest) with
        | some n => some n
        | none => scanValue (str "PRODID:") ((str "X-WR-CALNAME:" ++ a) :: rest)) =
      some (pyStrip a)
  rw [scanValue_first rest ha]

/-! ## Lemmas on encoding repair and summary labelling -/

theorem demojibake_noSig {s : Str} (h1 : 'Ã' ∉ s) (h2 : 'Â' ∉ s) : demojibake s = s := by
  rw [demojibake, if_neg]
  intro h
  rcases h with h | h
  · exact h1 h
  · exact h2 h

theorem summaryLineMatch_head {q : Str} (w : Str) (hq : ':' ∉ q) :
    summaryLineMatch ((str "SUMMARY" ++ q ++ [':']) ++ w) =
      some (str "SUMMARY" ++ q ++ [':'], w) := by
  simp [summaryLineMatch, List.append_assoc, stripPre_append, splitFirst_append w hq]

theorem summaryLineMatch_eq {l h v : Str} (hm : summaryLineMatch l = some (h, v)) :
    ∃ q, h = str "SUMMARY" ++ q ++ [':'] ∧ l = h ++ v ∧ ':' ∉ q := by
  rw [summaryLineMatch] at hm
  cases hs : stripPre (str "SUMMARY") l with
  | none => rw [hs] at hm; cases hm
  | some r =>
    rw [hs] at hm
    have hm2 : (match splitFirst ':' r with
        | some (q, v) => some (str "SUMMARY" ++ q ++ [':'], v)
        | none => (none : Option (Str × Str))) = some (h, v) := hm
    cases hf : splitFirst ':' r with
    | none => rw [hf] at hm2; cases hm2
    | some p =>
      rw [hf] at hm2
      rcases p with ⟨q, w⟩
      simp at hm2
      rcases hm2 with ⟨hh, hv⟩
      rcases splitFirst_eq_some hf with ⟨hr, hni⟩
      refine ⟨q, hh.symm, ?_, hni⟩
      rw [← hh, ← hv]
      rw [stripPre_eq_some.mp hs, hr]
      simp

theorem applyLabel_some_eq (l v : Str) :
    applyLabel (some l) v =
      (if l = [] then demojibake v
       else if ('[' :: l ++ str "] ").isPrefixOf (demojibake v) ∨ bracketGuard (demojibake v)
         then demojibake v
         else '[' :: l ++ ']' :: ' ' :: demojibake v) := rfl

theorem applyLabel_skip {l v : Str} (hl : l ≠ [])
    (hg : ('[' :: l ++ str "] ").isPrefixOf (demojibake v) ∨ bracketGuard (demojibake v)) :
    applyLabel (some l) v = demojibake v := by
  rw [applyLabel_some_eq, if_neg hl, if_pos hg]

theorem applyLabel_idem {lab : Option Str} {v : Str}
    (hv1 : 'Ã' ∉ v) (hv2 : 'Â' ∉ v)
    (hlab : ∀ l, lab = some l → 'Ã' ∉ l ∧ 'Â' ∉ l) :
    applyLabel lab (applyLabel lab v) = applyLabel lab v := by
  have hd : demojibake v = v := demojibake_noSig hv1 hv2
  cases lab with
  | none => simp [applyLabel, hd]
  | some l =>
    rcases hlab l rfl with ⟨ha1, ha2⟩
    by_cases hl : l = []
    · simp [applyLabel, hl, hd]
    · by_cases hg : ('[' :: l ++ str "] ").isPrefixOf (demojibake v) ∨
          bracketGuard (demojibake v)
      · have h1 : applyLabel (some l) v = demojibake v := applyLabel_skip hl hg
        rw [h1, hd]
        rw [h1, hd]
      · have honce : applyLabel (some l) v = '[' :: l ++ ']' :: ' ' :: v := by
          rw [applyLabel_some_eq, if_neg hl, if_neg hg, hd]
        rw [honce]
        have hw1 : 'Ã' ∉ '[' :: l ++ ']' :: ' ' :: v := by
          intro hm
          rcases List.mem_cons.mp hm with h1 | h1
          · exact absurd h1 (by decide)
          · rcases List.mem_append.mp h1 with h2 | h2
            · exact ha1 h2
            · rcases List.mem_cons.mp h2 with h3 | h3
              · exact absurd h3 (by decide)
              · rcases List.mem_cons.mp h3 with h4 | h4
                · exact absurd h4 (by decide)
                · exact hv1 h4
        have hw2 : 'Â' ∉ '[' :: l ++ ']' :: ' ' :: v := by
          intro hm
          rcases List.mem_cons.mp hm with h1 | h1
          · exact absurd h1 (by decide)
          · rcases List.mem_append.mp h1 with h2 | h2
            · exact ha2 h2
            · rcases List.mem_cons.mp h2 with h3 | h3
              · exact absurd h3 (by decide)
              · rcases List.mem_cons.mp h3 with h4 | h4
                · exact absurd h4 (by decide)
                · exact hv2 h4
        have hdw : demojibake ('[' :: l ++ ']' :: ' ' :: v) = '[' :: l ++ ']' :: ' ' :: v :=
          demojibake_noSig hw1 hw2
        have hpre : ('[' :: l ++ str "] ").isPrefixOf
            (demojibake ('[' :: l ++ ']' :: ' ' :: v)) := by
          rw [hdw]
          refine List.isPrefixOf_iff_prefix.mpr ?_
          refine ⟨v, ?_⟩
          show ('[' :: l ++ [']', ' ']) ++ v = '[' :: l ++ ']' :: ' ' :: v
          simp
        exact (applyLabel_skip hl (Or.inl hpre)).trans hdw

theorem subSummary_idem : ∀ (ls : List Str) (lab : Option Str),
    (∀ l ∈ ls, 'Ã' ∉ l ∧ 'Â' ∉ l) →
    (∀ l, lab = some l → 'Ã' ∉ l ∧ 'Â' ∉ l) →
    subSummary lab (subSummary lab ls) = subSummary lab ls := by
  intro ls
  induction ls with
  | nil => intro lab _ _; rfl
  | cons l ls ih =>
    intro lab hfree hlab
    rcases hfree l (List.mem_cons_self l ls) with ⟨hl1, hl2⟩
    cases hm : summaryLineMatch l with
    | none =>
      have e1 : subSummary lab (l :: ls) = l :: subSummary lab ls := by
        rw [subSummary, hm]
      rw [e1, subSummary, hm, ih lab (fun x hx => hfree x (List.mem_cons_of_mem l hx)) hlab]
    | some p =>
      rcases p with ⟨h, v⟩
      rcases summaryLineMatch_eq hm with ⟨q, hh, hlv, hq⟩
      have hv1 : 'Ã' ∉ v := fun hm2 => hl1 (by rw [hlv]; exact List.mem_append.mpr (Or.inr hm2))
      have hv2 : 'Â' ∉ v := fun hm2 => hl2 (by rw [hlv]; exact List.mem_append.mpr (Or.inr hm2))
      have hm2 : summaryLineMatch (h ++ applyLabel lab v) = some (h, applyLabel lab v) := by
        rw [hh]; exact summaryLineMatch_head _ hq
      have e1 : subSummary lab (l :: ls) = (h ++ applyLabel lab v) :: ls := by
        rw [subSummary, hm]
      have e2 : subSummary lab ((h ++ applyLabel lab v) :: ls) =
          (h ++ applyLabel lab (applyLabel lab v)) :: ls := by
        rw [subSummary, hm2]
      rw [e1, e2, applyLabel_idem hv1 hv2 hlab]

theorem applyLabel_none_eq (v : Str) : applyLabel none v = demojibake v := rfl

theorem applyLabel_no_nl {lab : Option Str} {v : Str}
    (hn : '\n' ∉ v) (hv1 : 'Ã' ∉ v) (hv2 : 'Â' ∉ v)
    (hlab : ∀ l0, lab = some l0 → '\n' ∉ l0) : '\n' ∉ applyLabel lab v := by
  have hd : demojibake v = v := demojibake_noSig hv1 hv2
  cases lab with
  | none => rw [applyLabel_none_eq, hd]; exact hn
  | some l0 =>
    by_cases hl : l0 = []
    · rw [applyLabel_some_eq, if_pos hl, hd]; exact hn
    · by_cases hg : ('[' :: l0 ++ str "] ").isPrefixOf (demojibake v) ∨
          bracketGuard (demojibake v)
      · rw [applyLabel_skip hl hg, hd]; exact hn
      · rw [applyLabel_some_eq, if_neg hl, if_neg hg, hd]
        intro hm
        rcases List.mem_cons.mp hm with h1 | h1
        · exact absurd h1 (by decide)
        · rcases List.mem_append.mp h1 with h2 | h2
          · exact hlab l0 rfl h2
          · rcases List.mem_cons.mp h2 with h3 | h3
            · exact absurd h3 (by decide)
            · rcases List.mem_cons.mp h3 with h4 | h4
              · exact absurd h4 (by decide)
              · exact hn h4

theorem subSummary_ne_nil {lab : Option Str} {ls : List Str} (h : ls ≠ []) :
    subSummary lab ls ≠ [] := by
  cases ls with
  | nil => exact absurd rfl h
  | cons l ls' =>
    cases hm : summaryLineMatch l with
    | none => rw [subSummary, hm]; simp
    | some p => rcases p with ⟨a, b⟩; rw [subSummary, hm]; simp

theorem subSummary_no_nl {lab : Option Str} : ∀ {ls : List Str},
    (∀ l ∈ ls, '\n' ∉ l ∧ 'Ã' ∉ l ∧ 'Â' ∉ l) →
    (∀ l0, lab = some l0 → '\n' ∉ l0) →
    ∀ l' ∈ subSummary lab ls, '\n' ∉ l' := by
  intro ls
  induction ls with
  | nil => intro _ _ l' hl'; simp [subSummary] at hl'
  | cons l ls ih =>
    intro hfree hlab l' hl'
    rcases hfree l (List.mem_cons_self l ls) with ⟨hn, h1, h2⟩
    cases hm : summaryLineMatch l with
    | none =>
      rw [subSummary, hm] at hl'
      rcases List.mem_cons.mp hl' with h3 | h3
      · subst h3; exact hn
      · exact ih (fun x hx => hfree x (List.mem_cons_of_mem l hx)) hlab l' h3
    | some p =>
      rcases p with ⟨h, v⟩
      rw [subSummary, hm] at hl'
      rcases List.mem_cons.mp hl' with h3 | h3
      · subst h3
        rcases summaryLineMatch_eq hm with ⟨q, hh, hlv, hq⟩
        have hnh : '\n' ∉ h := fun hm2 => hn (by rw [hlv]; exact List.mem_append.mpr (Or.inl hm2))
        have hnv : '\n' ∉ v := fun hm2 => hn (by rw [hlv]; exact List.mem_append.mpr (Or.inr hm2))
        have hv1 : 'Ã' ∉ v := fun hm2 => h1 (by rw [hlv]; exact List.mem_append.mpr (Or.inr hm2))
        have hv2 : 'Â' ∉ v := fun hm2 => h2 (by rw [hlv]; exact List.mem_append.mpr (Or.inr hm2))
        intro hm2
        rcases List.mem_append.mp hm2 with h4 | h4
        · exact hnh h4
        · exact applyLabel_no_nl hnv hv1 hv2 hlab h4
      · exact hfree l' (List.mem_cons_of_mem l h3) |>.1

theorem add_prefix_idem (evt : Str) (lab : Option Str)
    (he1 : 'Ã' ∉ evt) (he2 : 'Â' ∉ evt)
    (hlab : ∀ l, lab = some l → 'Ã' ∉ l ∧ 'Â' ∉ l ∧ '\n' ∉ l) :
    add_prefix_to_summary (add_prefix_to_summary evt lab) lab =
      add_prefix_to_summary evt lab := by
  have hfree : ∀ l ∈ splitNL evt, '\n' ∉ l ∧ 'Ã' ∉ l ∧ 'Â' ∉ l := by
    intro l hl
    exact ⟨splitNL_no_nl hl, fun hm => he1 (mem_splitNL_chars hl hm),
      fun hm => he2 (mem_splitNL_chars hl hm)⟩
  have hL'nl : ∀ l' ∈ subSummary lab (splitNL evt), '\n' ∉ l' :=
    subSummary_no_nl hfree (fun l0 h0 => (hlab l0 h0).2.2)
  have hL'ne : subSummary lab (splitNL evt) ≠ [] := subSummary_ne_nil (splitNL_ne_nil evt)
  show joinNL (subSummary lab (splitNL (joinNL (subSummary lab (splitNL evt))))) =
    joinNL (subSummary lab (splitNL evt))
  rw [splitNL_joinNL hL'nl hL'ne,
    subSummary_idem (splitNL evt) lab (fun x hx => (hfree x hx).2)
      (fun l0 h0 => ⟨(hlab l0 h0).1, (hlab l0 h0).2.1⟩)]

/-! ## Lemmas on lexicographic order and the stable sort -/

theorem char_toNat_inj {a b : Char} (h : a.toNat = b.toNat) : a = b :=
  Char.ext (UInt32.toNat.inj h)

theorem lexLt_irrefl : ∀ a : Str, lexLt a a = false := by
  intro a
  induction a with
  | nil => rfl
  | cons x xs ih => rw [lexLt, if_pos rfl]; exact ih

theorem lexLt_trans : ∀ (a b c : Str), lexLt a b = true → lexLt b c = true →
    lexLt a c = true := by
  intro a
  induction a with
  | nil =>
    intro b c hab hbc
    cases b with
    | nil => simp [lexLt] at hab
    | cons y ys =>
      cases c with
      | nil => simp [lexLt] at hbc
      | cons z zs => simp [lexLt]
  | cons x xs ih =>
    intro b c hab hbc
    cases b with
    | nil => simp [lexLt] at hab
    | cons y ys =>
      cases c with
      | nil => simp [lexLt] at hbc
      | cons z zs =>
        rw [lexLt] at hab hbc ⊢
        by_cases hxy : x = y
        · subst hxy
          rw [if_pos rfl] at hab
          by_cases hyz : x = z
          · subst hyz
            rw [if_pos rfl] at hbc ⊢
            exact ih ys zs hab hbc
          · rw [if_neg hyz] at hbc ⊢
            exact hbc
        · rw [if_neg hxy] at hab
          have hxyn : x.toNat < y.toNat := of_decide_eq_true hab
          by_cases hyz : y = z
          · subst hyz
            rw [if_neg hxy]
            exact decide_eq_true hxyn
          · rw [if_neg hyz] at hbc
            have hyzn : y.toNat < z.toNat := of_decide_eq_true hbc
            by_cases hxz : x = z
            · exfalso; subst hxz; omega
            · rw [if_neg hxz]
              exact decide_eq_true (by omega)

theorem lexLt_not : ∀ (a b : Str), lexLt a b = false → a = b ∨ lexLt b a = true := by
  intro a
  induction a with
  | nil =>
    intro b h
    cases b with
    | nil => exact Or.inl rfl
    | cons y ys => simp [lexLt] at h
  | cons x xs ih =>
    intro b h
    cases b with
    | nil => exact Or.inr (by simp [lexLt])
    | cons y ys =>
      rw [lexLt] at h
      by_cases hxy : x = y
      · subst hxy
        rw [if_pos rfl] at h
        rcases ih ys h with h1 | h1
        · exact Or.inl (by rw [h1])
        · refine Or.inr ?_
          rw [lexLt, if_pos rfl]
          exact h1
      · rw [if_neg hxy] at h
        have hxyn : ¬x.toNat < y.toNat := by
          intro hlt
          rw [decide_eq_true hlt] at h
          cases h
        have hne : x.toNat ≠ y.toNat := fun he => hxy (char_toNat_inj he)
        refine Or.inr ?_
        rw [lexLt, if_neg (fun he => hxy he.symm)]
        exact decide_eq_true (by omega)

theorem lexLt_asymm (a b : Str) (h : lexLt a b = true) : lexLt b a = false := by
  cases hba : lexLt b a
  · rfl
  · exfalso
    have h2 := lexLt_trans a b a h hba
    rw [lexLt_irrefl] at h2
    cases h2

theorem lexLe_trans {a b c : Str} (h1 : lexLt b a = false) (h2 : lexLt c b = false) :
    lexLt c a = false := by
  cases h3 : lexLt c a
  · rfl
  · exfalso
    rcases lexLt_not c b h2 with h4 | h4
    · rw [h4] at h3
      rw [h3] at h1
      cases h1
    · have h5 := lexLt_trans b c a h4 h3
      rw [h5] at h1
      cases h1

theorem evtLe_trans (a b c : Str) (h1 : evtLt b a = false) (h2 : evtLt c b = false) :
    evtLt c a = false :=
  lexLe_trans h1 h2

theorem chain'_to_pairwise {R : Str → Str → Prop} (htr : ∀ a b c, R a b → R b c → R a c) :
    ∀ {l : List Str}, List.Chain' R l → List.Pairwise R l := by
  intro l
  induction l with
  | nil => intro _; exact List.Pairwise.nil
  | cons a l ih =>
    intro h
    rw [List.chain'_cons'] at h
    rcases h with ⟨hh, ht⟩
    refine List.Pairwise.cons ?_ (ih ht)
    intro b hb
    cases l with
    | nil => simp at hb
    | cons c l' =>
      have hac : R a c := hh c rfl
      rcases List.mem_cons.mp hb with hb1 | hb1
      · subst hb1; exact hac
      · exact htr a c b hac (List.rel_of_pairwise_cons (ih ht) hb1)

theorem insEvt_chain (x : Str) : ∀ {acc : List Str},
    List.Chain' (fun a b => evtLt b a = false) acc →
    List.Chain' (fun a b => evtLt b a = false) (insEvt x acc) := by
  intro acc
  induction acc with
  | nil => intro _; simp [insEvt]
  | cons y ys ih =>
    intro h
    rw [insEvt]
    by_cases hxy : evtLt x y = true
    · rw [if_pos hxy]
      exact List.Chain'.cons (lexLt_asymm _ _ hxy) h
    · rw [if_neg hxy]
      rw [List.chain'_cons']
      constructor
      · intro h2 hh2
        cases ys with
        | nil =>
          simp [insEvt] at hh2
          subst hh2
          simpa using hxy
        | cons z zs =>
          rw [insEvt] at hh2
          by_cases hxz : evtLt x z = true
          · rw [if_pos hxz] at hh2
            simp at hh2
            subst hh2
            simpa using hxy
          · rw [if_neg hxz] at hh2
            simp at hh2
            subst hh2
            exact (List.chain'_cons.mp h).1
      · exact ih h.tail

theorem insEvt_countP (p : Str → Bool) (x : Str) : ∀ (acc : List Str),
    (insEvt x acc).countP p = acc.countP p + (if p x then 1 else 0) := by
  intro acc
  induction acc with
  | nil => simp [insEvt, List.countP_cons]
  | cons y ys ih =>
    rw [insEvt]
    by_cases hxy : evtLt x y = true
    · rw [if_pos hxy]
      simp [List.countP_cons]
    · rw [if_neg hxy]
      simp [List.countP_cons, ih]
      omega

theorem insEvt_filter (k x : Str) : ∀ {acc : List Str},
    List.Chain' (fun a b => evtLt b a = false) acc →
    (insEvt x acc).filter (fun e => decide (extract_dtstart e = k)) =
      (if extract_dtstart x = k
        then acc.filter (fun e => decide (extract_dtstart e = k)) ++ [x]
        else acc.filter (fun e => decide (extract_dtstart e = k))) := by
  intro acc
  induction acc with
  | nil =>
    intro _
    by_cases hk : extract_dtstart x = k <;> simp [insEvt, hk]
  | cons y ys ih =>
    intro h
    rw [insEvt]
    by_cases hxy : evtLt x y = true
    · rw [if_pos hxy]
      by_cases hk : extract_dtstart x = k
      · rw [if_pos hk]
        have hpw := chain'_to_pairwise evtLe_trans h
        have hfn : (y :: ys).filter (fun e => decide (extract_dtstart e = k)) = [] := by
          rw [List.filter_eq_nil_iff]
          intro z hz hzk
          have hzk2 : extract_dtstart z = k := of_decide_eq_true hzk
          rcases List.mem_cons.mp hz with h1 | h1
          · subst h1
            have h2 : lexLt (extract_dtstart x) (extract_dtstart z) = true := hxy
            rw [hk, hzk2] at h2
            rw [lexLt_irrefl] at h2
            cases h2
          · have hRyz : evtLt z y = false := List.rel_of_pairwise_cons hpw h1
            have h2 : lexLt k (extract_dtstart y) = false := by
              rw [← hzk2]; exact hRyz
            have h3 : lexLt k (extract_dtstart y) = true := by
              rw [← hk]; exact hxy
            rw [h2] at h3
            cases h3
        rw [List.filter_cons_of_pos (by simp [hk]), hfn]
        rfl
      · rw [if_neg hk]
        rw [List.filter_cons_of_neg (by simp [hk])]
    · rw [if_neg hxy]
      by_cases hky : extract_dtstart y = k
      · rw [List.filter_cons_of_pos (by simp [hky]), ih h.tail]
        by_cases hk : extract_dtstart x = k
        · rw [if_pos hk, if_pos hk, List.filter_cons_of_pos (by simp [hky])]
          simp
        · rw [if_neg hk, if_neg hk, List.filter_cons_of_pos (by simp [hky])]
      · rw [List.filter_cons_of_neg (by simp [hky]), ih h.tail]
        by_cases hk : extract_dtstart x = k
        · rw [if_pos hk, if_pos hk, List.filter_cons_of_neg (by simp [hky])]
        · rw [if_neg hk, if_neg hk, List.filter_cons_of_neg (by simp [hky])]

theorem foldl_ins_chain : ∀ (l acc : List Str),
    List.Chain' (fun a b => evtLt b a = false) acc →
    List.Chain' (fun a b => evtLt b a = false)
      (l.foldl (fun acc x => insEvt x acc) acc) := by
  intro l
  induction l with
  | nil => intro acc h; exact h
  | cons x l' ih => intro acc h; exact ih (insEvt x acc) (insEvt_chain x h)

theorem foldl_ins_countP (p : Str → Bool) : ∀ (l acc : List Str),
    (l.foldl (fun acc x => insEvt x acc) acc).countP p = acc.countP p + l.countP p := by
  intro l
  induction l with
  | nil => intro acc; simp
  | cons x l' ih =>
    intro acc
    rw [List.foldl_cons, ih (insEvt x acc), insEvt_countP, List.countP_cons]
    omega

theorem foldl_ins_filter (k : Str) : ∀ (l acc : List Str),
    List.Chain' (fun a b => evtLt b a = false) acc →
    (l.foldl (fun acc x => insEvt x acc) acc).filter (fun e => decide (extract_dtstart e = k)) =
      acc.filter (fun e => decide (extract_dtstart e = k)) ++
        l.filter (fun e => decide (extract_dtstart e = k)) := by
  intro l
  induction l with
  | nil => intro acc _; simp
  | cons x l' ih =>
    intro acc h
    rw [List.foldl_cons, ih (insEvt x acc) (insEvt_chain x h), insEvt_filter k x h]
    by_cases hk : extract_dtstart x = k
    · rw [if_pos hk, List.filter_cons_of_pos (by simp [hk])]
      simp
    · rw [if_neg hk, List.filter_cons_of_neg (by simp [hk])]

theorem sortEvents_chain (l : List Str) :
    List.Chain' (fun a b => evtLt b a = false) (sortEvents l) :=
  foldl_ins_chain l [] (by simp)

theorem sortEvents_countP (p : Str → Bool) (l : List Str) :
    (sortEvents l).countP p = l.countP p := by
  rw [sortEvents, foldl_ins_countP]
  simp

theorem sortEvents_filter (k : Str) (l : List Str) :
    (sortEvents l).filter (fun e => decide (extract_dtstart e = k)) =
      l.filter (fun e => decide (extract_dtstart e = k)) := by
  rw [sortEvents, foldl_ins_filter k l [] (by simp)]
  simp

/-! ## Lemmas on the dedup and the merge loop -/

theorem countKey_cons (u k v : Str) (ps : List (Str × Str)) :
    countKey u ((k, v) :: ps) = countKey u ps + (if k = u then 1 else 0) := by
  simp [countKey, List.countP_cons]

theorem findKey_cons (u k v : Str) (ps : List (Str × Str)) :
    findKey u ((k, v) :: ps) = if k = u then some (k, v) else findKey u ps := by
  by_cases h : k = u <;> simp [findKey, List.find?_cons, h]

theorem seenAfter_mem : ∀ (s : List (Str × Str)) (seen : List Str) (u : Str),
    u ∈ seenAfter seen s ↔ u ∈ seen ∨ u ∈ s.map Prod.fst := by
  intro s
  induction s with
  | nil => intro seen u; simp [seenAfter]
  | cons p ps ih =>
    intro seen u
    rcases p with ⟨k, v⟩
    rw [seenAfter]
    by_cases hks : k ∈ seen
    · rw [if_pos hks, ih]
      simp only [List.map_cons, List.mem_cons]
      constructor
      · rintro (h | h)
        · exact Or.inl h
        · exact Or.inr (Or.inr h)
      · rintro (h | h | h)
        · exact Or.inl h
        · subst h; exact Or.inl hks
        · exact Or.inr h
    · rw [if_neg hks, ih]
      simp only [List.map_cons, List.mem_cons]
      tauto

theorem dedupPairs_append : ∀ (s t : List (Str × Str)) (seen : List Str),
    dedupPairs seen (s ++ t) = dedupPairs seen s ++ dedupPairs (seenAfter seen s) t := by
  intro s
  induction s with
  | nil => intro t seen; simp [dedupPairs, seenAfter]
  | cons p ps ih =>
    intro t seen
    rcases p with ⟨k, v⟩
    rw [List.cons_append, dedupPairs, dedupPairs, seenAfter]
    by_cases hks : k ∈ seen
    · rw [if_pos hks, if_pos hks, if_pos hks]
      exact ih t seen
    · rw [if_neg hks, if_neg hks, if_neg hks, List.cons_append, ih]

theorem dedupEvents_eq (hashF : Str → Str) (lab : Option Str) : ∀ (es seen : List Str),
    dedupEvents hashF lab seen es =
      (seenAfter seen (es.map (fun e => (uidAssign hashF e, add_prefix_to_summary e lab))),
       dedupPairs seen (es.map (fun e => (uidAssign hashF e, add_prefix_to_summary e lab)))) := by
  intro es
  induction es with
  | nil => intro seen; rfl
  | cons e es ih =>
    intro seen
    simp only [dedupEvents, List.map_cons, seenAfter, dedupPairs]
    by_cases hks : uidAssign hashF e ∈ seen
    · simp only [if_pos hks, ih]
    · simp only [if_neg hks, ih]

theorem mergeDocs_eq (hashF : Str → Str) (labels : List Str) : ∀ (docs : List Str)
    (idx : Nat) (seen : List Str),
    mergeDocs hashF labels idx seen docs = dedupPairs seen (srcStream hashF labels idx docs) := by
  intro docs
  induction docs with
  | nil => intro idx seen; rfl
  | cons d ds ih =>
    intro idx seen
    rw [mergeDocs, srcStream, dedupEvents_eq, dedupPairs_append]
    simp only [ih]

theorem mergeAccum_eq (hashF : Str → Str) (labels docs : List Str) :
    mergeAccum hashF labels docs = dedupPairs [] (srcStream hashF labels 0 docs) := by
  rw [mergeAccum, mergeDocs_eq]

theorem dedupPairs_countKey (u : Str) : ∀ (s : List (Str × Str)) (seen : List Str),
    countKey u (dedupPairs seen s) = if u ∈ seen then 0 else min 1 (countKey u s) := by
  intro s
  induction s with
  | nil =>
    intro seen
    by_cases h : u ∈ seen <;> simp [dedupPairs, countKey, h]
  | cons p ps ih =>
    intro seen
    rcases p with ⟨k, v⟩
    rw [dedupPairs]
    by_cases hks : k ∈ seen
    · rw [if_pos hks, ih, countKey_cons]
      by_cases hus : u ∈ seen
      · rw [if_pos hus, if_pos hus]
      · rw [if_neg hus, if_neg hus]
        have hku : ¬k = u := fun he => hus (he ▸ hks)
        rw [if_neg hku]
        omega
    · rw [if_neg hks, countKey_cons, ih, countKey_cons]
      by_cases hku : k = u
      · subst hku
        rw [if_pos rfl, if_pos (List.mem_cons_self k seen), if_neg hks]
        omega
      · rw [if_neg hku]
        have hmem : u ∈ k :: seen ↔ u ∈ seen := by
          simp only [List.mem_cons]
          constructor
          · rintro (h | h)
            · exact absurd h.symm hku
            · exact h
          · exact Or.inr
        by_cases hus : u ∈ seen
        · rw [if_pos (hmem.mpr hus), if_pos hus]
        · rw [if_neg (fun hm => hus (hmem.mp hm)), if_neg hus]
          omega

theorem dedupPairs_findKey (u : Str) : ∀ (s : List (Str × Str)) (seen : List Str),
    u ∉ seen → findKey u (dedupPairs seen s) = findKey u s := by
  intro s
  induction s with
  | nil => intro seen _; rfl
  | cons p ps ih =>
    intro seen hus
    rcases p with ⟨k, v⟩
    rw [dedupPairs]
    by_cases hks : k ∈ seen
    · rw [if_pos hks, ih seen hus, findKey_cons]
      have hku : ¬k = u := fun he => hus (he ▸ hks)
      rw [if_neg hku]
    · rw [if_neg hks, findKey_cons, findKey_cons]
      by_cases hku : k = u
      · rw [if_pos hku, if_pos hku]
      · rw [if_neg hku, if_neg hku]
        refine ih (k :: seen) ?_
        intro hm
        rcases List.mem_cons.mp hm with h1 | h1
        · exact hku h1.symm
        · exact hus h1

/-! ## Lemmas on folding (for the unfold/fold inverse) -/

theorem concatP_cons (p : Str) (ps : List Str) : concatP (p :: ps) = p ++ concatP ps := rfl

theorem mem_concatP : ∀ {ps : List Str} {pi : Str} {c : Char},
    pi ∈ ps → c ∈ pi → c ∈ concatP ps := by
  intro ps
  induction ps with
  | nil => intro pi c h _; simp at h
  | cons q qs ih =>
    intro pi c hp hc
    rw [concatP_cons]
    rcases List.mem_cons.mp hp with h1 | h1
    · subst h1; exact List.mem_append.mpr (Or.inl hc)
    · exact List.mem_append.mpr (Or.inr (ih h1 hc))

theorem unfoldAux_cont : ∀ (ps : List Str) (rest : List Str) (hd : Str) (tl : List Str),
    unfoldAux (hd :: tl) (ps.map (fun p => ' ' :: p) ++ rest) =
      unfoldAux ((hd ++ concatP ps) :: tl) rest := by
  intro ps
  induction ps with
  | nil => intro rest hd tl; simp [concatP]
  | cons p ps ih =>
    intro rest hd tl
    simp only [List.map_cons, List.cons_append]
    show unfoldAux ((hd ++ p) :: tl) (ps.map (fun p => ' ' :: p) ++ rest) = _
    rw [ih, concatP_cons, List.append_assoc]

theorem unfoldAux_fold : ∀ (P : List (List Str)) (acc : List Str),
    (∀ pl ∈ P, pl ≠ []) →
    (∀ pl ∈ P, startsSpace (concatP pl) = false) →
    unfoldAux acc (P.flatMap foldPieces) = acc.reverse ++ P.map concatP := by
  intro P
  induction P with
  | nil => intro acc _ _; simp [unfoldAux]
  | cons pl P ih =>
    intro acc hne hsp
    cases pl with
    | nil => exact absurd rfl (hne [] (List.mem_cons_self [] P))
    | cons p ps =>
      have hsp0 : startsSpace (concatP (p :: ps)) = false :=
        hsp _ (List.mem_cons_self _ P)
      have hp : startsSpace p = false := by
        cases p with
        | nil => rfl
        | cons c cs =>
          rw [concatP_cons] at hsp0
          simpa [startsSpace] using hsp0
      have hne' : ∀ x ∈ P, x ≠ [] := fun x hx => hne x (List.mem_cons_of_mem _ hx)
      have hsp' : ∀ x ∈ P, startsSpace (concatP x) = false :=
        fun x hx => hsp x (List.mem_cons_of_mem _ hx)
      rw [List.flatMap_cons]
      show unfoldAux acc ((p :: ps.map (fun q => ' ' :: q)) ++ P.flatMap foldPieces) = _
      rw [List.cons_append]
      cases acc with
      | nil =>
        show unfoldAux [p] (ps.map (fun q => ' ' :: q) ++ P.flatMap foldPieces) = _
        rw [unfoldAux_cont, ih _ hne' hsp']
        simp [concatP_cons]
      | cons h t =>
        show (if startsSpace p = true
              then unfoldAux ((h ++ p.tail) :: t) (ps.map (fun q => ' ' :: q) ++ P.flatMap foldPieces)
              else unfoldAux (p :: h :: t) (ps.map (fun q => ' ' :: q) ++ P.flatMap foldPieces)) =
            (h :: t).reverse ++ List.map concatP ((p :: ps) :: P)
        rw [if_neg (by rw [hp]; exact fun hc => nomatch hc)]
        rw [unfoldAux_cont, ih _ hne' hsp']
        simp [concatP_cons]

/-! ## Claim theorems -/

/-- C1: deduplication is first-seen-wins across all sources.  For every run
(any hash function, label list and ordered document list) and every
identity `u`: the accumulated merge result contains exactly one entry with
identity `u` when the full pre-dedup labelled block stream (`srcStream`,
source order then block order) contains any, namely its first entry with
that identity — the labelled block from the source processed first; and
the final sort is a permutation, so each labelled block occurs in the
sorted output exactly as often as in the accumulated result.  The concrete
conjunct is the spec's dedup test: two sources both holding `UID:X-1`
merge to exactly the first source's labelled event. -/
theorem c1_dedup_first_seen_wins :
    (∀ (hashF : Str → Str) (labels docs : List Str) (u : Str),
      countKey u (mergeAccum hashF labels docs) =
        min 1 (countKey u (srcStream hashF labels 0 docs)) ∧
      findKey u (mergeAccum hashF labels docs) =
        findKey u (srcStream hashF labels 0 docs) ∧
      (∀ b : Str, countBlk b (mergeEvents hashF labels docs) =
        countBlk b ((mergeAccum hashF labels docs).map (·.2)))) ∧
    mergeEvents cHash [str "A", str "B"] [dedupDocA, dedupDocB] =
      [str "BEGIN:VEVENT\nUID:X-1\nSUMMARY:[A] Meeting\nEND:VEVENT"] := by
  constructor
  · intro hashF labels docs u
    refine ⟨?_, ?_, ?_⟩
    · rw [mergeAccum_eq, dedupPairs_countKey]
      simp
    · rw [mergeAccum_eq, dedupPairs_findKey u _ [] (by simp)]
    · intro b
      rw [mergeEvents, countBlk, countBlk, sortEvents_countP]
  · decide

/-- C2: after all sources are processed the accumulated labelled blocks
are stable-sorted by the extracted DTSTART string under plain
lexicographic (code point) comparison: adjacent output blocks have
nondecreasing keys, and for every key the output's blocks with that key
are exactly the accumulated list's blocks with that key in accumulation
order (stability).  The concrete conjunct is the spec's example: input
key order 20240105T100000Z, 20240102T100000Z, 20240102T090000Z is emitted
sorted. -/
theorem c2_stable_sort_by_dtstart :
    (∀ (hashF : Str → Str) (labels docs : List Str),
      List.Chain' (fun a b => evtLt b a = false) (mergeEvents hashF labels docs) ∧
      (∀ k : Str,
        (mergeEvents hashF labels docs).filter (fun e => decide (extract_dtstart e = k)) =
          ((mergeAccum hashF labels docs).map (·.2)).filter
            (fun e => decide (extract_dtstart e = k)))) ∧
    mergeEvents cHash [str "S"] [sortDoc] =
      [str "BEGIN:VEVENT\nUID:e3\nDTSTART:20240102T090000Z\nEND:VEVENT",
       str "BEGIN:VEVENT\nUID:e2\nDTSTART:20240102T100000Z\nEND:VEVENT",
       str "BEGIN:VEVENT\nUID:e1\nDTSTART:20240105T100000Z\nEND:VEVENT"] := by
  constructor
  · intro hashF labels docs
    exact ⟨sortEvents_chain _, fun k => sortEvents_filter k _⟩
  · decide

/-- C3: unfolding exactly reverses RFC 5545 folding.  A folding is given
by the list `P` of piece lists (each logical line split at arbitrary
points); the folded text is each first piece verbatim and each
continuation piece prefixed by one space, all serialized as
newline-terminated physical lines.  For logical lines that contain no
line-break character and do not begin with a space, `unfold_ics`
reconstructs the logical-line sequence exactly. -/
theorem c3_unfold_inverts_fold :
    ∀ P : List (List Str),
      (∀ pl ∈ P, pl ≠ []) →
      (∀ pl ∈ P, ∀ c ∈ concatP pl, isLineBreak c = false) →
      (∀ pl ∈ P, startsSpace (concatP pl) = false) →
      unfold_ics (foldText P) = P.map concatP := by
  intro P hne hbreak hsp
  have hphys : ∀ l ∈ P.flatMap foldPieces, ∀ c ∈ l, isLineBreak c = false := by
    intro l hl c hc
    rcases List.mem_flatMap.mp hl with ⟨pl, hpl, hlf⟩
    cases pl with
    | nil => simp [foldPieces] at hlf
    | cons p ps =>
      rw [foldPieces] at hlf
      rcases List.mem_cons.mp hlf with h1 | h1
      · subst h1
        exact hbreak _ hpl c (by rw [concatP_cons]; exact List.mem_append.mpr (Or.inl hc))
      · rcases List.mem_map.mp h1 with ⟨pi, hpi, hpieq⟩
        rw [← hpieq] at hc
        rcases List.mem_cons.mp hc with h2 | h2
        · subst h2; decide
        · exact hbreak _ hpl c
            (by rw [concatP_cons]; exact List.mem_append.mpr (Or.inr (mem_concatP hpi h2)))
  rw [unfold_ics, foldText, splitlines_phys hphys, unfoldAux_fold P [] hne hsp]
  rfl

/-- C3 witness: a concrete two-line folding round trip. -/
theorem c3_unfold_inverts_fold_witness :
    ((∀ pl ∈ [[str "SUMM", str "ARY:He", str "llo"], [str "END"]], pl ≠ []) ∧
     (∀ pl ∈ [[str "SUMM", str "ARY:He", str "llo"], [str "END"]],
        ∀ c ∈ concatP pl, isLineBreak c = false) ∧
     (∀ pl ∈ [[str "SUMM", str "ARY:He", str "llo"], [str "END"]],
        startsSpace (concatP pl) = false)) ∧
    unfold_ics (foldText [[str "SUMM", str "ARY:He", str "llo"], [str "END"]]) =
      [[str "SUMM", str "ARY:He", str "llo"], [str "END"]].map concatP :=
  ⟨⟨by decide, by decide, by decide⟩,
    c3_unfold_inverts_fold [[str "SUMM", str "ARY:He", str "llo"], [str "END"]]
      (by decide) (by decide) (by decide)⟩

/-- C4: event block extraction invariants.  (a) every emitted block's
first line is a begin-marker line and its last line an end-marker line
(the marker check is the source's `startswith`); (b) appending any
trailing lines containing no end-marker — in particular a trailing
begin-marker and its unterminated block — emits no further block;
(c) an end-marker line while not accumulating is ignored; (d) any prefix
of lines containing no begin-marker (lines outside begin/end pairs)
contributes nothing to the emitted blocks. -/
theorem c4_block_extraction_invariants :
    (∀ txt : Str, ∀ b ∈ parse_events txt,
        isBeginLine (firstLine b) = true ∧ isEndLine (lastLine b) = true) ∧
    (∀ ls extra : List Str, (∀ l ∈ extra, isEndLine l = false) →
        parseLines (ls ++ extra) = parseLines ls) ∧
    (∀ (l : Str) (ls : List Str), isEndLine l = true → parseLines (l :: ls) = parseLines ls) ∧
    (∀ pre ls : List Str, (∀ l ∈ pre, isBeginLine l = false) →
        parseLines (pre ++ ls) = parseLines ls) := by
  refine ⟨?_, ?_, ?_, ?_⟩
  · intro txt b hb
    refine parseAux_block_shape (unfold_ics txt) false [] ?_ ?_ ?_ b hb
    · intro l hl; exact unfold_no_nl hl
    · intro l hl; simp at hl
    · intro h; cases h
  · intro ls extra hex
    rw [parseLines, parseLines, parseAux_append,
      parseAux_no_end extra _ _ hex, List.append_nil]
  · intro l ls hend
    rw [parseLines, parseLines, parseAux, if_neg (by rw [not_begin_of_end hend]; exact fun h => nomatch h),
      if_pos hend, if_neg (by exact fun h => nomatch h)]
  · intro pre ls hpre
    exact parseLines_drop_neutral pre ls hpre

/-- C4 witness: the invariants at a concrete document with a stray
end-marker, an outside line, and a trailing unterminated begin-marker. -/
theorem c4_block_extraction_invariants_witness :
    ((str "BEGIN:VEVENT\nUID:x\nEND:VEVENT" ∈
        parse_events (str "END:VEVENT\nnoise\nBEGIN:VEVENT\nUID:x\nEND:VEVENT\nBEGIN:VEVENT\nUID:y")) ∧
      isBeginLine (firstLine (str "BEGIN:VEVENT\nUID:x\nEND:VEVENT")) = true ∧
      isEndLine (lastLine (str "BEGIN:VEVENT\nUID:x\nEND:VEVENT")) = true) ∧
    parseLines ([str "BEGIN:VEVENT", str "UID:x", str "END:VEVENT"] ++
        [str "BEGIN:VEVENT", str "UID:y"]) =
      parseLines [str "BEGIN:VEVENT", str "UID:x", str "END:VEVENT"] ∧
    parseLines [str "END:VEVENT", str "BEGIN:VEVENT", str "END:VEVENT"] =
      parseLines [str "BEGIN:VEVENT", str "END:VEVENT"] ∧
    parseLines ([str "noise", str "END:VEVENT"] ++ [str "BEGIN:VEVENT", str "END:VEVENT"]) =
      parseLines [str "BEGIN:VEVENT", str "END:VEVENT"] := by
  refine ⟨⟨by decide, ?_⟩, ?_, ?_, ?_⟩
  · exact c4_block_extraction_invariants.1
      (str "END:VEVENT\nnoise\nBEGIN:VEVENT\nUID:x\nEND:VEVENT\nBEGIN:VEVENT\nUID:y")
      (str "BEGIN:VEVENT\nUID:x\nEND:VEVENT") (by decide)
  · exact c4_block_extraction_invariants.2.1
      [str "BEGIN:VEVENT", str "UID:x", str "END:VEVENT"]
      [str "BEGIN:VEVENT", str "UID:y"] (by decide)
  · exact c4_block_extraction_invariants.2.2.1
      (str "END:VEVENT") [str "BEGIN:VEVENT", str "END:VEVENT"] (by decide)
  · exact c4_block_extraction_invariants.2.2.2
      [str "noise", str "END:VEVENT"] [str "BEGIN:VEVENT", str "END:VEVENT"] (by decide)

theorem lexLt_dated_sentinel {k : Str} (h : isDated k = true) :
    lexLt k dtSentinel = true := by
  cases k with
  | nil => rw [isDated] at h; cases h
  | cons c rest =>
    rw [isDated] at h
    have hb : '0'.toNat ≤ c.toNat ∧ c.toNat ≤ '8'.toNat := of_decide_eq_true h
    show lexLt (c :: rest) ('9' :: str "9999999T000000Z") = true
    rw [lexLt]
    have hc9 : ¬c = '9' := by
      intro he
      subst he
      revert hb
      decide
    rw [if_neg hc9]
    refine decide_eq_true ?_
    have h9 : ('9' : Char).toNat = 57 := by decide
    have h8 : ('8' : Char).toNat = 56 := by decide
    omega

/-- C5 counterexample: identity (UID) extraction is not tolerant of a
parameter suffix: on a block whose UID line is `UID;X=1:abc-123` the
extraction returns the absent signal, not the trimmed value `abc-123`
the claim promises. -/
theorem c5_counterexample :
    extract_uid paramUIDBlock = none ∧
    ¬extract_uid paramUIDBlock = some (str "abc-123") := by
  constructor
  · decide
  · decide

/-- C5 (amended): DTSTART and SUMMARY extraction tolerate any parameter
suffix before the colon, but UID extraction requires the colon
immediately after the field name: every block none of whose lines starts
with the exact prefix `UID:` — in particular one whose UID line carries a
parameter suffix — yields the absent signal. -/
theorem c5_param_tolerance_amended :
    (∀ ls : List Str, (∀ l ∈ ls, '\n' ∉ l) → ls ≠ [] →
      (∀ l ∈ ls, (str "UID:").isPrefixOf l = false) →
      extract_uid (joinNL ls) = none) ∧
    (∀ (l0 q v' : Str) (c : Char) (rest : List Str),
      '\n' ∉ l0 → ':' ∉ q → '\n' ∉ q → isTSChar c = true → '\n' ∉ v' → ¬c = '\n' →
      (∀ l ∈ rest, '\n' ∉ l) →
      extract_dtstart (joinNL (l0 :: (str "DTSTART" ++ q ++ ':' :: c :: v') :: rest)) =
        tsLeading (c :: v')) ∧
    (∀ q w : Str, ':' ∉ q →
      summaryLineMatch ((str "SUMMARY" ++ q ++ [':']) ++ w) =
        some (str "SUMMARY" ++ q ++ [':'], w)) := by
  refine ⟨?_, ?_, ?_⟩
  · intro ls hnl hne h
    exact extract_uid_absent hnl hne h
  · intro l0 q v' c rest h0 hq hqn hc hvn hcn hr
    exact extract_dtstart_param rest h0 hq hqn hc hvn hcn hr
  · intro q w hq
    exact summaryLineMatch_head w hq

/-- C5 witness: the amended statement at the parameter-suffixed UID block,
at a DTSTART line with a TZID parameter, and at a SUMMARY line with a
LANGUAGE parameter. -/
theorem c5_param_tolerance_amended_witness :
    extract_uid (joinNL [str "BEGIN:VEVENT", str "UID;X=1:abc-123", str "END:VEVENT"]) = none ∧
    extract_dtstart (joinNL [str "BEGIN:VEVENT",
        str "DTSTART" ++ str ";TZID=Europe/Stockholm" ++ ':' :: '2' :: str "0240101T120000Z",
        str "END:VEVENT"]) = tsLeading ('2' :: str "0240101T120000Z") ∧
    summaryLineMatch ((str "SUMMARY" ++ str ";LANGUAGE=sv" ++ [':']) ++ str "Hej") =
      some (str "SUMMARY" ++ str ";LANGUAGE=sv" ++ [':'], str "Hej") :=
  ⟨c5_param_tolerance_amended.1 [str "BEGIN:VEVENT", str "UID;X=1:abc-123", str "END:VEVENT"]
      (by decide) (by decide) (by decide),
   c5_param_tolerance_amended.2.1 (str "BEGIN:VEVENT") (str ";TZID=Europe/Stockholm")
      (str "0240101T120000Z") '2' [str "END:VEVENT"]
      (by decide) (by decide) (by decide) (by decide) (by decide) (by decide) (by decide),
   c5_param_tolerance_amended.2.2 (str ";LANGUAGE=sv") (str "Hej") (by decide)⟩

/-- C6 counterexample: on a block whose only DTSTART line has value `abc`
(empty leading run of timestamp-set characters) the extraction returns
the maximal sentinel, not the (empty) leading run the claim promises for
every block with a DTSTART line. -/
theorem c6_counterexample :
    extract_dtstart badDTBlock = dtSentinel ∧
    tsLeading (str "abc") = [] ∧
    ¬extract_dtstart badDTBlock = tsLeading (str "abc") := by
  refine ⟨by decide, by decide, by decide⟩

/-- C6 (amended): sort-key extraction is total: a block with no
DTSTART-prefixed line yields the maximal sentinel `99999999T000000Z`; a
DTSTART line (any parameter suffix before the colon) whose value begins
with a timestamp-set character yields the value's nonempty leading run of
timestamp-set characters (a DTSTART line whose value has an empty leading
run is skipped, and the sentinel is returned if no DTSTART line matches);
consequently in every merged output no undated event (sentinel key)
precedes a dated one (key opening with a year digit 0–8). -/
theorem c6_sort_key_total_amended :
    (∀ ls : List Str, (∀ l ∈ ls, '\n' ∉ l) → ls ≠ [] →
      (∀ l ∈ ls, (str "DTSTART").isPrefixOf l = false) →
      extract_dtstart (joinNL ls) = dtSentinel) ∧
    (∀ (l0 q v' : Str) (c : Char) (rest : List Str),
      '\n' ∉ l0 → ':' ∉ q → '\n' ∉ q → isTSChar c = true → '\n' ∉ v' → ¬c = '\n' →
      (∀ l ∈ rest, '\n' ∉ l) →
      extract_dtstart (joinNL (l0 :: (str "DTSTART" ++ q ++ ':' :: c :: v') :: rest)) =
        tsLeading (c :: v') ∧ tsLeading (c :: v') ≠ []) ∧
    (∀ (hashF : Str → Str) (labels docs : List Str),
      (mergeEvents hashF labels docs).Pairwise
        (fun a b => ¬(extract_dtstart a = dtSentinel ∧ isDated (extract_dtstart b) = true))) := by
  refine ⟨?_, ?_, ?_⟩
  · intro ls hnl hne h
    exact extract_dtstart_absent hnl hne h
  · intro l0 q v' c rest h0 hq hqn hc hvn hcn hr
    refine ⟨extract_dtstart_param rest h0 hq hqn hc hvn hcn hr, ?_⟩
    rw [tsLeading, List.takeWhile_cons, hc]
    simp
  · intro hashF labels docs
    have hpw := chain'_to_pairwise evtLe_trans (sortEvents_chain
      ((mergeAccum hashF labels docs).map (·.2)))
    refine hpw.imp ?_
    intro a b hab
    rintro ⟨hsa, hdb⟩
    have h1 : lexLt (extract_dtstart b) (extract_dtstart a) = false := hab
    rw [hsa] at h1
    rw [lexLt_dated_sentinel hdb] at h1
    cases h1

/-- C6 witness: the amended statement at a block without DTSTART, at a
parameter-suffixed dated block, and at a concrete merged run. -/
theorem c6_sort_key_total_amended_witness :
    extract_dtstart (joinNL [str "BEGIN:VEVENT", str "UID:u", str "END:VEVENT"]) = dtSentinel ∧
    (extract_dtstart (joinNL [str "BEGIN:VEVENT",
        str "DTSTART" ++ str ";VALUE=DATE" ++ ':' :: '2' :: str "0240215",
        str "END:VEVENT"]) = tsLeading ('2' :: str "0240215") ∧
      tsLeading ('2' :: str "0240215") ≠ []) ∧
    (mergeEvents cHash [str "S"] [sortDoc]).Pairwise
      (fun a b => ¬(extract_dtstart a = dtSentinel ∧ isDated (extract_dtstart b) = true)) :=
  ⟨c6_sort_key_total_amended.1 [str "BEGIN:VEVENT", str "UID:u", str "END:VEVENT"]
      (by decide) (by decide) (by decide),
   c6_sort_key_total_amended.2.1 (str "BEGIN:VEVENT") (str ";VALUE=DATE") (str "0240215")
      '2' [str "END:VEVENT"]
      (by decide) (by decide) (by decide) (by decide) (by decide) (by decide) (by decide),
   c6_sort_key_total_amended.2.2 cHash [str "S"] [sortDoc]⟩

/-- C7 counterexample: the Summary Labeler is not idempotent.  On a block
whose summary value is doubly mojibake-encoded (`Ã\x83Â¶`), one
application repairs it to `Ã¶` and labels it; a second application with
the same label repairs the still-corrupt value again to `ö` before the
idempotence guard keeps it, so applying twice differs from applying
once. -/
theorem c7_counterexample :
    add_prefix_to_summary (add_prefix_to_summary doubleMojiBlock (some (str "X"))) (some (str "X")) ≠
      add_prefix_to_summary doubleMojiBlock (some (str "X")) := by
  decide

/-- C7 (amended): if the repaired summary value already begins with
`"[label] "` or with any bracketed prefix, the repaired value passes
through with no prefix added; and applying the labeler twice with the
same label equals applying it once provided the block and the label
contain no encoding-corruption signature character (`Ã`/`Â`) — re-repair
of a still-corrupt value otherwise makes a second application differ. -/
theorem c7_labeler_idempotent_amended :
    (∀ l v : Str, l ≠ [] →
      (('[' :: l ++ str "] ").isPrefixOf (demojibake v) ∨ bracketGuard (demojibake v)) →
      applyLabel (some l) v = demojibake v) ∧
    (∀ (evt : Str) (lab : Option Str), 'Ã' ∉ evt → 'Â' ∉ evt →
      (∀ l, lab = some l → 'Ã' ∉ l ∧ 'Â' ∉ l ∧ '\n' ∉ l) →
      add_prefix_to_summary (add_prefix_to_summary evt lab) lab =
        add_prefix_to_summary evt lab) := by
  constructor
  · intro l v hl hg
    exact applyLabel_skip hl hg
  · intro evt lab he1 he2 hlab
    exact add_prefix_idem evt lab he1 he2 hlab

/-- C7 witness: the guard at an already-labelled value, and idempotence
at a clean concrete block. -/
theorem c7_labeler_idempotent_amended_witness :
    applyLabel (some (str "Work")) (str "[Work] Meeting") = demojibake (str "[Work] Meeting") ∧
    add_prefix_to_summary
        (add_prefix_to_summary (str "BEGIN:VEVENT\nSUMMARY:Meeting\nEND:VEVENT")
          (some (str "Work"))) (some (str "Work")) =
      add_prefix_to_summary (str "BEGIN:VEVENT\nSUMMARY:Meeting\nEND:VEVENT")
        (some (str "Work")) :=
  ⟨c7_labeler_idempotent_amended.1 (str "Work") (str "[Work] Meeting") (by decide) (by decide),
   c7_labeler_idempotent_amended.2 (str "BEGIN:VEVENT\nSUMMARY:Meeting\nEND:VEVENT")
      (some (str "Work")) (by decide) (by decide)
      (by intro l hl; cases hl; exact ⟨by decide, by decide, by decide⟩)⟩

/-- C8: Encoding Repair is total and conservative.  With no signature
character the input is returned unchanged; with a signature character the
result is the latin-1-encode/UTF-8-decode round trip when it succeeds and
the original string when it fails; being a total Lean function it never
raises.  Concretely `GrÃ¶t` repairs to `Gröt`, a signature-free string is
unchanged, and a lone `Ã` (whose round trip is invalid UTF-8) is
unchanged. -/
theorem c8_encoding_repair :
    (∀ s : Str, 'Ã' ∉ s → 'Â' ∉ s → demojibake s = s) ∧
    (∀ s : Str, ('Ã' ∈ s ∨ 'Â' ∈ s) →
      (∀ t, mojiRoundTrip s = some t → demojibake s = t) ∧
      (mojiRoundTrip s = none → demojibake s = s)) ∧
    demojibake (str "GrÃ¶t") = str "Gröt" ∧
    demojibake (str "Grot") = str "Grot" ∧
    mojiRoundTrip (str "Ã") = none ∧
    demojibake (str "Ã") = str "Ã" := by
  refine ⟨?_, ?_, by decide, by decide, by decide, by decide⟩
  · intro s h1 h2
    exact demojibake_noSig h1 h2
  · intro s hs
    constructor
    · intro t ht
      rw [demojibake, if_pos hs, ht]
    · intro ht
      rw [demojibake, if_pos hs, ht]

/-- C8 witness: the first conjunct at a signature-free string and the
second at a repairable and an unrepairable signature string. -/
theorem c8_encoding_repair_witness :
    demojibake (str "Hello") = str "Hello" ∧
    demojibake (str "GrÃ¶t") = str "Gröt" ∧
    demojibake (str "Ã") = str "Ã" :=
  ⟨c8_encoding_repair.1 (str "Hello") (by decide) (by decide),
   (c8_encoding_repair.2.1 (str "GrÃ¶t") (by decide)).1 (str "Gröt") (by decide),
   (c8_encoding_repair.2.1 (str "Ã") (by decide)).2 (by decide)⟩

theorem folded_uid_reassembled {a b : Str} (ha : a ≠ [])
    (hba : ∀ c ∈ a, isLineBreak c = false) (hbb : ∀ c ∈ b, isLineBreak c = false) :
    parse_events (joinNL [str "BEGIN:VEVENT", str "UID:" ++ a, ' ' :: b, str "END:VEVENT"]) =
      [joinNL [str "BEGIN:VEVENT", (str "UID:" ++ a) ++ b, str "END:VEVENT"]] ∧
    extract_uid (joinNL [str "BEGIN:VEVENT", (str "UID:" ++ a) ++ b, str "END:VEVENT"]) =
      some (pyStrip (a ++ b)) := by
  have hbrk : ∀ l ∈ [str "BEGIN:VEVENT", str "UID:" ++ a, ' ' :: b, str "END:VEVENT"],
      ∀ c ∈ l, isLineBreak c = false := by
    intro l hl c hc
    rcases List.mem_cons.mp hl with h1 | h1
    · subst h1
      exact (by decide : ∀ x ∈ str "BEGIN:VEVENT", isLineBreak x = false) c hc
    rcases List.mem_cons.mp h1 with h2 | h2
    · subst h2
      rcases List.mem_append.mp hc with h3 | h3
      · exact (by decide : ∀ x ∈ str "UID:", isLineBreak x = false) c h3
      · exact hba c h3
    rcases List.mem_cons.mp h2 with h3 | h3
    · subst h3
      rcases List.mem_cons.mp hc with h4 | h4
      · subst h4; decide
      · exact hbb c h4
    rcases List.mem_cons.mp h3 with h4 | h4
    · subst h4
      exact (by decide : ∀ x ∈ str "END:VEVENT", isLineBreak x = false) c hc
    · simp at h4
  have hsplit : splitlines (joinNL [str "BEGIN:VEVENT", str "UID:" ++ a, ' ' :: b,
      str "END:VEVENT"]) = [str "BEGIN:VEVENT", str "UID:" ++ a, ' ' :: b, str "END:VEVENT"] :=
    splitlines_joinNL hbrk (by simp)
      (by
        intro h
        have h2 : some (str "END:VEVENT") = some ([] : Str) := h
        exact absurd (Option.some.inj h2) (by decide))
  constructor
  · rw [parse_events, unfold_ics, hsplit]
    rfl
  · have hnl2 : ∀ l ∈ [str "BEGIN:VEVENT", (str "UID:" ++ a) ++ b, str "END:VEVENT"],
        '\n' ∉ l := by
      intro l hl hc
      have : isLineBreak '\n' = false := by
        rcases List.mem_cons.mp hl with h1 | h1
        · subst h1; exact hbrk _ (by simp) '\n' hc
        rcases List.mem_cons.mp h1 with h2 | h2
        · subst h2
          rcases List.mem_append.mp hc with h3 | h3
          · exact hbrk (str "UID:" ++ a) (by simp) '\n' h3
          · exact hbb '\n' h3
        rcases List.mem_cons.mp h2 with h3 | h3
        · subst h3; exact hbrk _ (by simp) '\n' hc
        · simp at h3
      exact absurd this (by decide)
    rw [extract_uid, splitNL_joinNL hnl2 (by simp)]
    show scanValue (str "UID:") [(str "UID:" ++ a) ++ b, str "END:VEVENT"] = _
    have hx : (str "UID:" ++ a) ++ b = str "UID:" ++ (a ++ b) := by simp
    have hne : (a ++ b).isEmpty = false := by
      cases a with
      | nil => exact absurd rfl ha
      | cons c cs => rfl
    rw [scanValue, hx, stripPre_append]
    simp [hne]

/-- C9 counterexample: calendar-name extraction runs on the raw,
un-unfolded document text, so a folded `X-WR-CALNAME` value is truncated
at the first physical line break: on the folded document the label used
by the merge is `My Ca`, not the reassembled `My Calendar`. -/
theorem c9_counterexample :
    effLabel [] 0 foldedNameDoc = some (str "My Ca") ∧
    ¬get_calendar_name foldedNameDoc = some (str "My Calendar") := by
  exact ⟨by decide, by decide⟩

/-- C9 (amended): event-block field extraction happens after unfolding —
a UID value folded across physical lines is reassembled verbatim before
extraction — but calendar display name extraction is performed on the raw
document text before any unfolding, so a folded `X-WR-CALNAME` value is
truncated at the first physical line break (the stripped first fragment
is returned, whatever the continuation holds). -/
theorem c9_unfold_before_extraction_amended :
    (∀ (l0 a b : Str) (rest : List Str), a ≠ [] →
      '\n' ∉ l0 → '\n' ∉ a → '\n' ∉ b → (∀ l ∈ rest, '\n' ∉ l) →
      get_calendar_name
          (joinNL (l0 :: (str "X-WR-CALNAME:" ++ a) :: (' ' :: b) :: rest)) =
        some (pyStrip a)) ∧
    (∀ a b : Str, a ≠ [] →
      (∀ c ∈ a, isLineBreak c = false) → (∀ c ∈ b, isLineBreak c = false) →
      parse_events (joinNL [str "BEGIN:VEVENT", str "UID:" ++ a, ' ' :: b,
          str "END:VEVENT"]) =
        [joinNL [str "BEGIN:VEVENT", (str "UID:" ++ a) ++ b, str "END:VEVENT"]] ∧
      extract_uid (joinNL [str "BEGIN:VEVENT", (str "UID:" ++ a) ++ b,
          str "END:VEVENT"]) = some (pyStrip (a ++ b))) := by
  constructor
  · intro l0 a b rest ha h0 hA hb hr
    refine get_calendar_name_folded ((' ' :: b) :: rest) ha h0 hA ?_
    intro l hl
    rcases List.mem_cons.mp hl with h1 | h1
    · subst h1
      intro hm
      rcases List.mem_cons.mp hm with h2 | h2
      · exact absurd h2 (by decide)
      · exact hb h2
    · exact hr l h1
  · intro a b ha hba hbb
    exact folded_uid_reassembled ha hba hbb

/-- C9 witness: the amended statement at the folded calendar name
`My Ca` / ` lendar` and at a folded UID `uid-12` / `3456`. -/
theorem c9_unfold_before_extraction_amended_witness :
    get_calendar_name (joinNL (str "BEGIN:VCALENDAR" ::
        (str "X-WR-CALNAME:" ++ str "My Ca") :: (' ' :: str "lendar") ::
        [str "END:VCALENDAR"])) = some (pyStrip (str "My Ca")) ∧
    (parse_events (joinNL [str "BEGIN:VEVENT", str "UID:" ++ str "uid-12",
        ' ' :: str "3456", str "END:VEVENT"]) =
      [joinNL [str "BEGIN:VEVENT", (str "UID:" ++ str "uid-12") ++ str "3456",
        str "END:VEVENT"]] ∧
     extract_uid (joinNL [str "BEGIN:VEVENT", (str "UID:" ++ str "uid-12") ++ str "3456",
        str "END:VEVENT"]) = some (pyStrip (str "uid-12" ++ str "3456"))) :=
  ⟨c9_unfold_before_extraction_amended.1 (str "BEGIN:VCALENDAR") (str "My Ca")
      (str "lendar") [str "END:VCALENDAR"]
      (by decide) (by decide) (by decide) (by decide) (by decide),
   c9_unfold_before_extraction_amended.2 (str "uid-12") (str "3456")
      (by decide) (by decide) (by decide)⟩

/-- C10: a UID line whose value is empty or whitespace-only is a falsy
extraction result (`None` or the empty string after stripping), so the
merge assigns the synthetic content-derived identity `NOUID-<hash>`
(never the empty string as dedup key); two blank-UID blocks whose hash
values differ get distinct identities; and concretely a source with two
distinct-content blank-UID events keeps both in the merged output. -/
theorem c10_blank_uid_synthetic_identity :
    (∀ (hashF : Str → Str) (e : Str),
      (extract_uid e = none ∨ extract_uid e = some []) →
      uidAssign hashF e = str "NOUID-" ++ hashF e ∧ uidAssign hashF e ≠ []) ∧
    (∀ (hashF : Str → Str) (e1 e2 : Str),
      (extract_uid e1 = none ∨ extract_uid e1 = some []) →
      (extract_uid e2 = none ∨ extract_uid e2 = some []) →
      hashF e1 ≠ hashF e2 → uidAssign hashF e1 ≠ uidAssign hashF e2) ∧
    (mergeEvents cHash [] [blankUIDDoc]).length = 2 := by
  have hbase : ∀ (hashF : Str → Str) (e : Str),
      (extract_uid e = none ∨ extract_uid e = some []) →
      uidAssign hashF e = str "NOUID-" ++ hashF e := by
    intro hashF e he
    rcases he with h | h
    · rw [uidAssign, h]
    · rw [uidAssign, h]
      simp
  refine ⟨?_, ?_, by decide⟩
  · intro hashF e he
    refine ⟨hbase hashF e he, ?_⟩
    rw [hbase hashF e he]
    simp [str]
  · intro hashF e1 e2 h1 h2 hne heq
    rw [hbase hashF e1 h1, hbase hashF e2 h2] at heq
    exact hne (List.append_cancel_left heq)

/-- C10 witness: the statement at the whitespace-only and the empty
blank-UID blocks of the concrete source. -/
theorem c10_blank_uid_synthetic_identity_witness :
    (uidAssign cHash (str "BEGIN:VEVENT\nUID:   \nSUMMARY:First\nEND:VEVENT") =
        str "NOUID-" ++ cHash (str "BEGIN:VEVENT\nUID:   \nSUMMARY:First\nEND:VEVENT") ∧
      uidAssign cHash (str "BEGIN:VEVENT\nUID:   \nSUMMARY:First\nEND:VEVENT") ≠ []) ∧
    uidAssign cHash (str "BEGIN:VEVENT\nUID:   \nSUMMARY:First\nEND:VEVENT") ≠
      uidAssign cHash (str "BEGIN:VEVENT\nUID:\nSUMMARY:Second\nEND:VEVENT") :=
  ⟨c10_blank_uid_synthetic_identity.1 cHash
      (str "BEGIN:VEVENT\nUID:   \nSUMMARY:First\nEND:VEVENT") (by decide),
   c10_blank_uid_synthetic_identity.2.1 cHash
      (str "BEGIN:VEVENT\nUID:   \nSUMMARY:First\nEND:VEVENT")
      (str "BEGIN:VEVENT\nUID:\nSUMMARY:Second\nEND:VEVENT")
      (by decide) (by decide) (by decide)⟩
